import Mathlib

/-!
# Blocker: chain, UTXO ledger and block/transaction binding

A shallow embedding of the consensus-state code of the `blocker` node
(`crypto/keys.go`, `types/block.go`, `types/transaction.go`, `node/store.go`,
`node/chain.go`) and of the mempool and peer table of `node/node.go`.

Conventions of the embedding.

* A Go byte slice is a `ByteSeq`, a `List (Fin 256)`; a nil slice and an empty slice are the
  same value, as they are for `len`, `bytes.Equal` and protobuf marshalling.
* The protobuf messages are plain values.  The Go code passes them by pointer
  and `VerifyTransaction` writes through that pointer, so every function that
  can reach `VerifyTransaction` returns the message as it is after the call
  next to its Go result.  Two messages never share a sub-object.
* A Go `panic` is the outcome `none` of an outer `Option`.
* SHA-256, the protobuf encoder and Ed25519 are library code: they are the
  fields of `Primitives`, and every definition takes them as a parameter.
* `int64` arithmetic wraps (`wrapInt64`); `int` values that only count or index
  are `Nat`/`Int`.
* A function that only reads its receiver returns only its Go result; a
  function that writes returns the receiver afterwards as well.
* Calls are sequential; a goroutine that a call starts is returned as data.
-/

namespace Blocker

/-! ## Byte sequences and hexadecimal text -/

abbrev Byte := Fin 256

abbrev ByteSeq := List Byte

/-- The digit table of `encoding/hex`. -/
def hextable : List Char := "0123456789abcdef".toList

def hexDigit (n : Nat) : Char := hextable.getD n '0'

/-- Characters written by `hex.EncodeToString` for one byte. -/
def hexByte (b : Byte) : List Char := [hexDigit (b.val / 16), hexDigit (b.val % 16)]

def hexChars : ByteSeq → List Char
  | [] => []
  | b :: bs => hexByte b ++ hexChars bs

/-- Go `hex.EncodeToString`. -/
def hexEncode (bs : ByteSeq) : String := String.mk (hexChars bs)

/-- Value of one hexadecimal character, as `hex.DecodeString` reads it. -/
def fromHexChar (c : Char) : Option Nat :=
  if '0' ≤ c ∧ c ≤ '9' then some (c.toNat - '0'.toNat)
  else if 'a' ≤ c ∧ c ≤ 'f' then some (c.toNat - 'a'.toNat + 10)
  else if 'A' ≤ c ∧ c ≤ 'F' then some (c.toNat - 'A'.toNat + 10)
  else none

def hexDecodeChars : List Char → Option ByteSeq
  | [] => some []
  | [_] => none
  | a :: b :: rest =>
    match fromHexChar a, fromHexChar b, hexDecodeChars rest with
    | some x, some y, some bs => some (Fin.ofNat (x * 16 + y) :: bs)
    | _, _, _ => none

/-- Go `hex.DecodeString`; `none` is its error. -/
def hexDecodeString (s : String) : Option ByteSeq := hexDecodeChars s.toList

/-- Text of `fmt.Sprintf("%s_%d", hash, index)`. -/
def utxoKey (hash : String) (index : Nat) : String := hash ++ "_" ++ toString index

/-- Two's-complement wrap of an exact integer into the `int64` range. -/
def wrapInt64 (x : Int) : Int := (x + 2 ^ 63) % 2 ^ 64 - 2 ^ 63

/-! ## Protobuf messages (`proto` package) -/

structure Header where
  Version : Int
  Height : Int
  PrevHash : ByteSeq
  RootHash : ByteSeq
  Timestamp : Int
deriving DecidableEq, Repr

structure TxInput where
  PrevTxHash : ByteSeq
  PrevOutIndex : Nat
  PublicKey : ByteSeq
  Signature : ByteSeq
deriving DecidableEq, Repr

structure TxOutput where
  Amount : Int
  Address : ByteSeq
deriving DecidableEq, Repr

structure Transaction where
  Version : Int
  Inputs : List TxInput
  Outputs : List TxOutput
deriving DecidableEq, Repr

structure Block where
  Header : Header
  Transactions : List Transaction
  PublicKey : ByteSeq
  Signature : ByteSeq
deriving DecidableEq, Repr

/-! ## Library primitives -/

/-- The library functions the code calls: `pb.Marshal` on the two message
types that are hashed, `sha256.Sum256`, and Ed25519. -/
structure Primitives where
  marshalHeader : Header → ByteSeq
  marshalTransaction : Transaction → ByteSeq
  sha256 : ByteSeq → ByteSeq
  edNewKeyFromSeed : ByteSeq → ByteSeq
  edSign : ByteSeq → ByteSeq → ByteSeq
  edVerify : ByteSeq → ByteSeq → ByteSeq → Bool

/-! ## `crypto/keys.go` -/

def SignatureLen : Nat := 64

def PrivKeyLen : Nat := 64

def PubKeyLen : Nat := 32

def SeedLen : Nat := 32

def AddressLen : Nat := 20

structure PrivateKey where
  key : ByteSeq
deriving DecidableEq, Repr

structure PublicKey where
  key : ByteSeq
deriving DecidableEq, Repr

structure Signature where
  value : ByteSeq
deriving DecidableEq, Repr

structure Address where
  value : ByteSeq
deriving DecidableEq, Repr

/-- Panics (`none`) on a seed that is not 32 bytes long. -/
def NewPrivateKeyFromSeed (P : Primitives) (seed : ByteSeq) : Option PrivateKey :=
  if seed.length ≠ SeedLen then none
  else some { key := P.edNewKeyFromSeed seed }

/-- Panics (`none`) when the text is not hexadecimal or the seed is not 32 bytes. -/
def NewPrivateKeyFromSeedStr (P : Primitives) (s : String) : Option PrivateKey :=
  match hexDecodeString s with
  | none => none
  | some b => NewPrivateKeyFromSeed P b

/-- `ed25519.Sign` panics on a private key that is not 64 bytes long. -/
def PrivateKey.Sign (P : Primitives) (p : PrivateKey) (msg : ByteSeq) : Option Signature :=
  if p.key.length ≠ PrivKeyLen then none
  else some { value := P.edSign p.key msg }

/-- Go `copy(b, src)` into a fresh zeroed buffer `b` of `n` bytes. -/
def copyInto (n : Nat) (src : ByteSeq) : ByteSeq :=
  src.take n ++ List.replicate (n - src.length) 0

/-- `Public`: copies `p.key[32:]` into a 32-byte buffer; the slice expression
panics when the key is shorter than 32 bytes. -/
def PrivateKey.Public (p : PrivateKey) : Option PublicKey :=
  if p.key.length < PrivKeyLen - PubKeyLen then none
  else some { key := copyInto PubKeyLen (p.key.drop (PrivKeyLen - PubKeyLen)) }

/-- `PublicKey`: `ed25519.PrivateKey.Public`, which copies `key[32:]`. -/
def PrivateKey.PublicKey (p : PrivateKey) : Option PublicKey :=
  if p.key.length < 32 then none
  else some { key := copyInto 32 (p.key.drop 32) }

def PublicKey.Bytes (p : PublicKey) : ByteSeq := p.key

def Signature.Bytes (s : Signature) : ByteSeq := s.value

def Address.Bytes (a : Address) : ByteSeq := a.value

def PublicKeyFromBytes (b : ByteSeq) : Option PublicKey :=
  if b.length ≠ PubKeyLen then none else some { key := b }

def SignatureFromBytes (b : ByteSeq) : Option Signature :=
  if b.length ≠ SignatureLen then none else some { value := b }

def Signature.Verify (P : Primitives) (s : Signature) (pubKey : PublicKey) (msg : ByteSeq) : Bool :=
  P.edVerify pubKey.key msg s.value

/-- `Address`: the slice `p.key[12:]`, which panics on a key shorter than 12 bytes. -/
def PublicKey.Address (p : PublicKey) : Option Address :=
  if p.key.length < PubKeyLen - AddressLen then none
  else some { value := p.key.drop (PubKeyLen - AddressLen) }

/-! ## Merkle tree (`cbergoon/merkletree`, as `types/block.go` uses it)

The tree's content is the list of transaction hashes (`TxHash.CalculateHash`
returns the stored hash).  The library hashes with SHA-256. -/

/-- One level of `buildIntermediate`: neighbours are hashed in pairs, an odd
last node with itself. -/
def pairUp (P : Primitives) : List ByteSeq → List ByteSeq
  | [] => []
  | [a] => [P.sha256 (a ++ a)]
  | a :: b :: rest => P.sha256 (a ++ b) :: pairUp P rest

/-- `buildIntermediate`: a two-node level yields the root, any other level
recurses on the level above.  The fuel bounds the recursion depth; `none` is
fuel exhaustion. -/
def buildIntermediate (P : Primitives) : Nat → List ByteSeq → Option ByteSeq
  | 0, _ => none
  | fuel + 1, nl =>
    match nl with
    | [a, b] => some (P.sha256 (a ++ b))
    | _ => buildIntermediate P fuel (pairUp P nl)

structure MerkleTree where
  leafs : List ByteSeq
  merkleRoot : ByteSeq
deriving DecidableEq, Repr

/-- Leaves of `buildWithContent`: the content hashes, the last one repeated
when their number is odd. -/
def merkleLeafs (cs : List ByteSeq) : List ByteSeq :=
  if cs.length % 2 = 1 then cs ++ [cs.getLastD []] else cs

/-- `merkletree.NewTree`; `none` is its error (no content). -/
def NewTree (P : Primitives) (cs : List ByteSeq) : Option MerkleTree :=
  if cs.length = 0 then none
  else
    let leafs := merkleLeafs cs
    match buildIntermediate P leafs.length leafs with
    | none => none
    | some root => some { leafs := leafs, merkleRoot := root }

def MerkleTree.MerkleRoot (t : MerkleTree) : ByteSeq := t.merkleRoot

/-- `VerifyTree`: recomputes the root from the leaves and compares it with the
stored root. -/
def MerkleTree.VerifyTree (P : Primitives) (t : MerkleTree) : Bool :=
  match buildIntermediate P t.leafs.length t.leafs with
  | none => false
  | some calculated => decide (t.merkleRoot = calculated)

/-! ## `types/transaction.go` and `types/block.go` -/

def HashTransaction (P : Primitives) (tx : Transaction) : ByteSeq :=
  P.sha256 (P.marshalTransaction tx)

def HashHeader (P : Primitives) (header : Header) : ByteSeq :=
  P.sha256 (P.marshalHeader header)

def HashBlock (P : Primitives) (block : Block) : ByteSeq :=
  HashHeader P block.Header

def SignTransaction (P : Primitives) (pk : PrivateKey) (tx : Transaction) : Option Signature :=
  pk.Sign P (HashTransaction P tx)

/-- The assignment `input.Signature = nil`. -/
def TxInput.clearSignature (input : TxInput) : TxInput :=
  { input with Signature := [] }

/-- The loop of `VerifyTransaction`.  `done` holds the inputs already visited
(their signatures cleared), `rest` those still to visit; `tx` supplies the
other fields.  The result is `none` for the panic on a wrong length, else the
returned boolean and the transaction as the loop left it. -/
def VerifyTransaction.loop (P : Primitives) (tx : Transaction) :
    List TxInput → List TxInput → Option (Bool × Transaction)
  | done, [] => some (true, { tx with Inputs := done })
  | done, input :: rest =>
    if input.PublicKey.length ≠ PubKeyLen ∨ input.Signature.length ≠ SignatureLen then none
    else
      let sig : Signature := { value := input.Signature }
      let pubKey : PublicKey := { key := input.PublicKey }
      let tx1 : Transaction := { tx with Inputs := done ++ input.clearSignature :: rest }
      if !sig.Verify P pubKey (HashTransaction P tx1) then some (false, tx1)
      else VerifyTransaction.loop P tx (done ++ [input.clearSignature]) rest

def VerifyTransaction (P : Primitives) (tx : Transaction) : Option (Bool × Transaction) :=
  VerifyTransaction.loop P tx [] tx.Inputs

def GetMerkleTree (P : Primitives) (b : Block) : Option MerkleTree :=
  NewTree P (b.Transactions.map (HashTransaction P))

def VerifyRootHash (P : Primitives) (b : Block) : Bool :=
  match GetMerkleTree P b with
  | none => false
  | some t =>
    let valid := t.VerifyTree P
    if b.Header.RootHash.length = 0 then false
    else if !valid then false
    else decide (b.Header.RootHash = t.MerkleRoot)

def VerifyBlock (P : Primitives) (b : Block) : Bool :=
  if b.Transactions.length > 0 ∧ VerifyRootHash P b = false then false
  else if b.PublicKey.length ≠ PubKeyLen ∨ b.Signature.length ≠ SignatureLen then false
  else
    let sig : Signature := { value := b.Signature }
    let pubKey : PublicKey := { key := b.PublicKey }
    sig.Verify P pubKey (HashBlock P b)

/-- The block after `SignBlock` set its root hash (when it has transactions). -/
def SignBlock.withRoot (P : Primitives) (b : Block) : Option Block :=
  if b.Transactions.length > 0 then
    match GetMerkleTree P b with
    | none => none
    | some t => some { b with Header := { b.Header with RootHash := t.MerkleRoot } }
  else some b

/-- `SignBlock` returns the signature and writes root hash, public key and
signature into the block; `none` is a panic. -/
def SignBlock (P : Primitives) (pk : PrivateKey) (b : Block) : Option (Signature × Block) :=
  match SignBlock.withRoot P b with
  | none => none
  | some b1 =>
    let hash := HashBlock P b1
    match pk.Sign P hash, pk.Public with
    | some sig, some pub => some (sig, { b1 with PublicKey := pub.Bytes, Signature := sig.Bytes })
    | _, _ => none

/-- The block `SignBlock` leaves behind, given the block with its root hash set. -/
def SignBlock.sealed (P : Primitives) (key : ByteSeq) (b1 : Block) : Block :=
  { b1 with PublicKey := key.drop 32, Signature := P.edSign key (HashBlock P b1) }

/-! ## `node/store.go` -/

structure UTXO where
  Hash : String
  OutIndex : Nat
  Amount : Int
  Spent : Bool
deriving DecidableEq, Repr

/-- A Go `map[string]*V` as an association list without repeated keys. -/
abbrev GoMap (V : Type) := List (String × V)

def GoMap.get {V : Type} (m : GoMap V) (k : String) : Option V :=
  match m with
  | [] => none
  | (k1, v) :: rest => if k1 = k then some v else GoMap.get rest k

def GoMap.erase {V : Type} (m : GoMap V) (k : String) : GoMap V :=
  match m with
  | [] => []
  | (k1, v) :: rest => if k1 = k then GoMap.erase rest k else (k1, v) :: GoMap.erase rest k

/-- The assignment `m[k] = v`. -/
def GoMap.set {V : Type} (m : GoMap V) (k : String) (v : V) : GoMap V :=
  (k, v) :: GoMap.erase m k

structure MemoryUTXOStore where
  data : GoMap UTXO
deriving DecidableEq, Repr

structure MemoryTXStore where
  txx : GoMap Transaction
deriving DecidableEq, Repr

structure MemoryBlockStore where
  blocks : GoMap Block
deriving DecidableEq, Repr

def NewMemoryUTXOStore : MemoryUTXOStore := { data := [] }

def NewMemoryTXStore : MemoryTXStore := { txx := [] }

def NewMemoryBlockStore : MemoryBlockStore := { blocks := [] }

/-- `Get`: `none` is the returned "doesn't exist" error. -/
def MemoryUTXOStore.Get (s : MemoryUTXOStore) (hash : String) : Option UTXO :=
  s.data.get hash

def MemoryUTXOStore.Put (s : MemoryUTXOStore) (utxo : UTXO) : MemoryUTXOStore :=
  { data := s.data.set (utxoKey utxo.Hash utxo.OutIndex) utxo }

def MemoryTXStore.Get (s : MemoryTXStore) (hash : String) : Option Transaction :=
  s.txx.get hash

def MemoryTXStore.Put (P : Primitives) (s : MemoryTXStore) (tx : Transaction) : MemoryTXStore :=
  { txx := s.txx.set (hexEncode (HashTransaction P tx)) tx }

def MemoryBlockStore.Get (s : MemoryBlockStore) (hash : String) : Option Block :=
  s.blocks.get hash

def MemoryBlockStore.Put (P : Primitives) (s : MemoryBlockStore) (block : Block) : MemoryBlockStore :=
  { blocks := s.blocks.set (hexEncode (HashBlock P block)) block }

/-! ## `node/chain.go` -/

def godSeed : String := "f7b2e105abbf7b30cefc49019386f498ecc40e1db5472b7875fa223ead7c9389"

structure HeaderList where
  headers : List Header
deriving DecidableEq, Repr

def NewHeaderList : HeaderList := { headers := [] }

def HeaderList.Add (hl : HeaderList) (header : Header) : HeaderList :=
  { headers := hl.headers ++ [header] }

def HeaderList.Len (hl : HeaderList) : Int := hl.headers.length

/-- Height of the last header in the list. -/
def HeaderList.Height (hl : HeaderList) : Int := hl.Len - 1

/-- `Get` panics (`none`) on an index above the height, and the slice
expression `hl.headers[index]` panics on a negative index. -/
def HeaderList.Get (hl : HeaderList) (index : Int) : Option Header :=
  if index > hl.Height then none
  else if index < 0 then none
  else hl.headers.get? index.toNat

/-- The errors the chain returns, one constructor per `fmt.Errorf` site. -/
inductive ChainError where
  | utxoMissing (key : String)
  | txMissing (hash : String)
  | blockMissing (hash : String)
  | heightTooGreat (height chainHeight : Int)
  | blockSignatureInvalid
  | prevHashMismatch
  | txSignatureInvalid
  | alreadySpent (index : Nat) (prevHash : String)
  | insufficientBalance (got spending : Int)
deriving DecidableEq, Repr

deriving instance DecidableEq for Except

structure Chain where
  txStore : MemoryTXStore
  utxStore : MemoryUTXOStore
  blockStore : MemoryBlockStore
  headers : HeaderList
deriving DecidableEq, Repr

def Chain.Height (c : Chain) : Int := c.headers.Height

/-- The inner loop of `addBlock`: one UTXO per output of `tx`, `it` being the
index of the first output of `outputs`. -/
def Chain.addBlock.putOutputs (P : Primitives) (tx : Transaction) :
    MemoryUTXOStore → Nat → List TxOutput → MemoryUTXOStore
  | store, _, [] => store
  | store, it, output :: rest =>
    let hash := hexEncode (HashTransaction P tx)
    let utxo : UTXO := { Hash := hash, OutIndex := it, Amount := output.Amount, Spent := false }
    Chain.addBlock.putOutputs P tx (store.Put utxo) (it + 1) rest

/-- The outer loop of `addBlock` over the block's transactions. -/
def Chain.addBlock.putTransactions (P : Primitives) :
    MemoryTXStore → MemoryUTXOStore → List Transaction → MemoryTXStore × MemoryUTXOStore
  | txStore, utxStore, [] => (txStore, utxStore)
  | txStore, utxStore, tx :: rest =>
    Chain.addBlock.putTransactions P (txStore.Put P tx)
      (Chain.addBlock.putOutputs P tx utxStore 0 tx.Outputs) rest

/-- `addBlock` over the in-memory stores, whose `Put` never fails: the
returned error is always nil, so only the new chain state is returned. -/
def Chain.addBlock (P : Primitives) (c : Chain) (b : Block) : Chain :=
  let headers := c.headers.Add b.Header
  let stores := Chain.addBlock.putTransactions P c.txStore c.utxStore b.Transactions
  { txStore := stores.1, utxStore := stores.2, blockStore := c.blockStore.Put P b,
    headers := headers }

def Chain.GetBlockByHash (c : Chain) (hash : ByteSeq) : Except ChainError Block :=
  let hashHex := hexEncode hash
  match c.blockStore.Get hashHex with
  | none => .error (.blockMissing hashHex)
  | some block => .ok block

/-- `GetBlockByHeight`; the outer `none` is a panic inside `HeaderList.Get`. -/
def Chain.GetBlockByHeight (P : Primitives) (c : Chain) (height : Int) :
    Option (Except ChainError Block) :=
  if height > c.Height then some (.error (.heightTooGreat height c.Height))
  else
    match c.headers.Get height with
    | none => none
    | some header => some (c.GetBlockByHash (HashHeader P header))

/-- The input loop of `ValidateTransaction`: looks every input up under the
key made of its previous transaction hash and the loop index `i`, and sums the
amounts in `int64`. -/
def Chain.ValidateTransaction.sumInputs (c : Chain) :
    Nat → Int → List TxInput → Except ChainError Int
  | _, sumInputs, [] => .ok sumInputs
  | i, sumInputs, input :: rest =>
    let prevHash := hexEncode input.PrevTxHash
    let key := utxoKey prevHash i
    match c.utxStore.Get key with
    | none => .error (.utxoMissing key)
    | some utxo =>
      let sumInputs1 := wrapInt64 (sumInputs + utxo.Amount)
      if utxo.Spent then .error (.alreadySpent i prevHash)
      else Chain.ValidateTransaction.sumInputs c (i + 1) sumInputs1 rest

/-- The output loop of `ValidateTransaction`. -/
def Chain.ValidateTransaction.sumOutputs : Int → List TxOutput → Int
  | sumOutputs, [] => sumOutputs
  | sumOutputs, output :: rest =>
    Chain.ValidateTransaction.sumOutputs (wrapInt64 (sumOutputs + output.Amount)) rest

/-- `ValidateTransaction`: `none` is a panic, else the returned error (or nil)
and the transaction as `VerifyTransaction` left it. -/
def Chain.ValidateTransaction (P : Primitives) (c : Chain) (tx : Transaction) :
    Option (Option ChainError × Transaction) :=
  match VerifyTransaction P tx with
  | none => none
  | some (false, tx1) => some (some .txSignatureInvalid, tx1)
  | some (true, tx1) =>
    match Chain.ValidateTransaction.sumInputs c 0 0 tx1.Inputs with
    | .error e => some (some e, tx1)
    | .ok sumInputs =>
      let sumOutputs := Chain.ValidateTransaction.sumOutputs 0 tx1.Outputs
      if sumInputs < sumOutputs then some (some (.insufficientBalance sumInputs sumOutputs), tx1)
      else some (none, tx1)

/-- The transaction loop of `ValidateBlock`; `done` are the transactions
already validated (as validation left them). -/
def Chain.ValidateBlock.loop (P : Primitives) (c : Chain) :
    List Transaction → List Transaction → Option (Option ChainError × List Transaction)
  | done, [] => some (none, done)
  | done, tx :: rest =>
    match c.ValidateTransaction P tx with
    | none => none
    | some (some err, tx1) => some (some err, done ++ tx1 :: rest)
    | some (none, tx1) => Chain.ValidateBlock.loop P c (done ++ [tx1]) rest

/-- `ValidateBlock`: `none` is a panic, else the returned error (or nil) and
the block as validation left it. -/
def Chain.ValidateBlock (P : Primitives) (c : Chain) (b : Block) :
    Option (Option ChainError × Block) :=
  if !VerifyBlock P b then some (some .blockSignatureInvalid, b)
  else
    match c.GetBlockByHeight P c.Height with
    | none => none
    | some (.error err) => some (some err, b)
    | some (.ok currentBlock) =>
      let hash := HashBlock P currentBlock
      if b.Header.PrevHash ≠ hash then some (some .prevHashMismatch, b)
      else
        match Chain.ValidateBlock.loop P c [] b.Transactions with
        | none => none
        | some (err, txs) => some (err, { b with Transactions := txs })

/-- `AddBlock`: `none` is a panic, else the returned error (or nil), the chain
afterwards and the block as the call left it. -/
def Chain.AddBlock (P : Primitives) (c : Chain) (b : Block) :
    Option (Option ChainError × Chain × Block) :=
  match c.ValidateBlock P b with
  | none => none
  | some (some err, b1) => some (some err, c, b1)
  | some (none, b1) => some (none, c.addBlock P b1, b1)

/-- `createGenesisBlock`; `none` is a panic. -/
def createGenesisBlock (P : Primitives) : Option Block :=
  match NewPrivateKeyFromSeedStr P godSeed with
  | none => none
  | some privKey =>
    match privKey.PublicKey with
    | none => none
    | some pub =>
      match pub.Address with
      | none => none
      | some addr =>
        let block : Block :=
          { Header := { Version := 1, Height := 0, PrevHash := [], RootHash := [], Timestamp := 0 },
            Transactions := [], PublicKey := [], Signature := [] }
        let tx : Transaction :=
          { Version := 1, Inputs := [], Outputs := [{ Amount := 1000, Address := addr.Bytes }] }
        let block1 := { block with Transactions := block.Transactions ++ [tx] }
        match SignBlock P privKey block1 with
        | none => none
        | some (_, block2) => some block2

/-- `NewChain` over the given block and transaction stores; `none` is a panic
while the genesis block is made. -/
def NewChain (P : Primitives) (blockStorer : MemoryBlockStore) (txStore : MemoryTXStore) :
    Option Chain :=
  let chain : Chain :=
    { txStore := txStore, utxStore := NewMemoryUTXOStore, blockStore := blockStorer,
      headers := NewHeaderList }
  match createGenesisBlock P with
  | none => none
  | some genesis => some (chain.addBlock P genesis)

/-- The chain states a program can reach: `NewChain` over fresh in-memory
stores, then any number of `AddBlock` calls that return (with or without an
error). -/
inductive Reachable (P : Primitives) : Chain → Prop where
  | init (c : Chain) : NewChain P NewMemoryBlockStore NewMemoryTXStore = some c → Reachable P c
  | step (c : Chain) (b : Block) (err : Option ChainError) (c1 : Chain) (b1 : Block) :
      Reachable P c → c.AddBlock P b = some (err, c1, b1) → Reachable P c1

/-- The last header of the chain is the header of the block stored under its hash. -/
def TipStored (P : Primitives) (c : Chain) (tip : Block) : Prop :=
  ∃ init : List Header, c.headers.headers = init ++ [tip.Header] ∧
    c.blockStore.Get (hexEncode (HashHeader P tip.Header)) = some tip

/-- The transaction `createGenesisBlock` puts into the genesis block. -/
def genesisTransaction (addr : ByteSeq) : Transaction :=
  { Version := 1, Inputs := [], Outputs := [{ Amount := 1000, Address := addr }] }

/-- The UTXO that `ValidateTransaction` looks up for the input at position `i`:
the entry under the key made of the input's previous transaction hash and `i`. -/
def Chain.inputUTXO (c : Chain) (i : Nat) (input : TxInput) : Option UTXO :=
  c.utxStore.Get (utxoKey (hexEncode input.PrevTxHash) i)

/-- Amounts of the UTXOs looked up for the inputs, the first one at position
`i` (0 for an input without UTXO). -/
def Chain.inputAmounts (c : Chain) : Nat → List TxInput → List Int
  | _, [] => []
  | i, input :: rest =>
    ((c.inputUTXO i input).map (fun u => u.Amount)).getD 0 :: Chain.inputAmounts c (i + 1) rest

/-- Sum of a list the way the code accumulates it in an `int64`, from `acc`. -/
def int64SumFrom (acc : Int) (xs : List Int) : Int :=
  xs.foldl (fun a x => wrapInt64 (a + x)) acc

/-- Sum of a list accumulated in an `int64` that starts at 0. -/
def int64Sum (xs : List Int) : Int := int64SumFrom 0 xs

/-! ## `node/node.go` -/

structure Mempool where
  txx : GoMap Transaction
deriving DecidableEq, Repr

def NewMempool : Mempool := { txx := [] }

/-- The keys of a map listed in its representation. -/
def GoMap.keys {V : Type} (m : GoMap V) : List String := m.map (fun p => p.1)

/-- The loop `for k, v := range m.txx` of `Clear`.  `pending` are the entries
the iteration has not reached yet, `txx` is the map as the deletions left it;
an entry whose key is gone from the map is not produced.  `it` is the counter
of the loop, `txs` the slice built so far. -/
def Mempool.Clear.loop :
    GoMap Transaction → List Transaction → Nat → List (String × Transaction) →
      GoMap Transaction × List Transaction
  | txx, txs, _, [] => (txx, txs)
  | txx, txs, it, (k, _) :: pending =>
    match txx.get k with
    | none => Mempool.Clear.loop txx txs it pending
    | some v => Mempool.Clear.loop (txx.erase k) ((txs ++ [v]).set it v) (it + 1) pending

/-- `Clear` returns the slice and leaves the mempool behind; the second loop
appends what is still in the map. -/
def Mempool.Clear (m : Mempool) : List Transaction × Mempool :=
  let r := Mempool.Clear.loop m.txx [] 0 m.txx
  (r.2 ++ r.1.map (fun p => p.2), { txx := r.1 })

def Mempool.Len (m : Mempool) : Int := m.txx.length

def Mempool.Has (P : Primitives) (m : Mempool) (tx : Transaction) : Bool :=
  (m.txx.get (hexEncode (HashTransaction P tx))).isSome

/-- `Add` returns its boolean and the mempool afterwards. -/
def Mempool.Add (P : Primitives) (m : Mempool) (tx : Transaction) : Bool × Mempool :=
  if m.Has P tx then (false, m)
  else (true, { txx := m.txx.set (hexEncode (HashTransaction P tx)) tx })

set_option linter.dupNamespace false in
/-- The `proto.Version` message. -/
structure Version where
  Version : String
  Height : Int
  ListenAddr : String
  PeerList : List String
deriving DecidableEq, Repr

/-- A `map[proto.NodeClient]*proto.Version`; a client handle is a number. -/
abbrev PeerMap := List (Nat × Version)

/-- The assignment `peers[c] = v`. -/
def PeerMap.set (m : PeerMap) (c : Nat) (v : Version) : PeerMap :=
  (c, v) :: m.filter (fun p => p.1 ≠ c)

structure ServerConfig where
  Version : String
  ListenAddr : String
  PrivateKey : Option PrivateKey
deriving DecidableEq, Repr

structure Node where
  toServerConfig : ServerConfig
  peers : PeerMap
  mempool : Mempool
deriving DecidableEq, Repr

def NewNode (cfg : ServerConfig) : Node :=
  { toServerConfig := cfg, peers := [], mempool := NewMempool }

def Node.ListenAddr (n : Node) : String := n.toServerConfig.ListenAddr

def Node.getPeerList (n : Node) : List String :=
  n.peers.map (fun p => p.2.ListenAddr)

def Node.getVersion (n : Node) : Version :=
  { Version := n.toServerConfig.Version, Height := 0, ListenAddr := n.ListenAddr,
    PeerList := n.getPeerList }

/-- The loop of `canConnectWith` over the connected peers. -/
def Node.canConnectWith.loop (addr : String) : List String → Bool
  | [] => true
  | connectedAddr :: rest =>
    if addr = connectedAddr then false else Node.canConnectWith.loop addr rest

def Node.canConnectWith (n : Node) (addr : String) : Bool :=
  if n.ListenAddr = addr then false
  else Node.canConnectWith.loop addr n.getPeerList

/-- `addPeer` returns the node afterwards and, when the peer advertised further
peers, the address list of the bootstrap pass it starts (`go
n.bootstrapNetwork(v.PeerList)`). -/
def Node.addPeer (n : Node) (c : Nat) (v : Version) : Node × Option (List String) :=
  let n1 := { n with peers := n.peers.set c v }
  if v.PeerList.length > 0 then (n1, some v.PeerList) else (n1, none)

/-- `Handshake`.  `dial` is what `makeNodeClient(v.ListenAddr)` yields: a client
handle, or `none` for its error.  The result is the node afterwards, the
returned Version (`none` for the returned error) and the bootstrap pass that
`addPeer` started. -/
def Node.Handshake (n : Node) (v : Version) (dial : Option Nat) :
    Node × Option Version × Option (List String) :=
  match dial with
  | none => (n, none, none)
  | some c =>
    let r := n.addPeer c v
    (r.1, some r.1.getVersion, r.2)

/-- Value of a decimal digit character. -/
def digitVal (c : Char) : Nat := c.toNat - 48

/-- No two different transactions of the list have the same hash. -/
def HashesDistinct (P : Primitives) (txs : List Transaction) : Prop :=
  ∀ t1 ∈ txs, ∀ t2 ∈ txs, HashTransaction P t1 = HashTransaction P t2 → t1 = t2

/-- A program run: the blocks are passed to `AddBlock` one after the other.
The result is the final chain and the number of calls that returned no error;
`none` when a call panics. -/
def Chain.addBlocks (P : Primitives) : Chain → List Block → Option (Chain × Nat)
  | c, [] => some (c, 0)
  | c, b :: rest =>
    match c.AddBlock P b with
    | none => none
    | some (err, c1, _) =>
      match Chain.addBlocks P c1 rest with
      | none => none
      | some (c2, n) => some (c2, if err = none then n + 1 else n)

/-- Root that `NewTree` computes for a list of content hashes (`none`: no tree). -/
def merkleRootOf (P : Primitives) (hashes : List ByteSeq) : Option ByteSeq :=
  (NewTree P hashes).map MerkleTree.MerkleRoot

/-- A transaction with the signature of every input cleared. -/
def Transaction.clearSignatures (tx : Transaction) : Transaction :=
  { tx with Inputs := tx.Inputs.map TxInput.clearSignature }

/-- What the code relies on from Ed25519: key and signature sizes, and that a
signature made with a key generated from a seed verifies under the public half
of that key. -/
structure EdCorrect (P : Primitives) : Prop where
  key_length : ∀ seed : ByteSeq, seed.length = 32 → (P.edNewKeyFromSeed seed).length = 64
  sign_length : ∀ key msg : ByteSeq, key.length = 64 → (P.edSign key msg).length = 64
  verify_sign : ∀ seed msg : ByteSeq, seed.length = 32 →
    P.edVerify ((P.edNewKeyFromSeed seed).drop 32) msg (P.edSign (P.edNewKeyFromSeed seed) msg)
      = true

/-- Every header but the first carries the hash of the header before it. -/
def HeadersLinked (P : Primitives) (hs : List Header) : Prop :=
  List.Chain' (fun prev hdr => hdr.PrevHash = HashHeader P prev) hs

/-- A reachable chain state together with its history: the genesis block and,
after it, every block that `AddBlock` accepted, each as it was when it was
passed to `AddBlock` (that is, when it was validated). -/
inductive ReachableWith (P : Primitives) : List Block → Chain → Prop where
  | init (c : Chain) (g : Block) : createGenesisBlock P = some g →
      NewChain P NewMemoryBlockStore NewMemoryTXStore = some c → ReachableWith P [g] c
  | accept (hist : List Block) (c : Chain) (b : Block) (c1 : Chain) (b1 : Block) :
      ReachableWith P hist c → c.AddBlock P b = some (none, c1, b1) →
      ReachableWith P (hist ++ [b]) c1
  | reject (hist : List Block) (c : Chain) (b : Block) (e : ChainError) (c1 : Chain)
      (b1 : Block) :
      ReachableWith P hist c → c.AddBlock P b = some (some e, c1, b1) → ReachableWith P hist c1

/-- Where a running `Add(tx)` stands: before its call of `m.Has(tx)`; after that
call found the transaction absent and released the read lock, before the write
lock is taken; or returned, with its result. -/
inductive AddState where
  | start
  | absent
  | returned (result : Bool)
deriving DecidableEq, Repr

/-- One critical section of a running `Add(tx)`: the read-locked `m.Has(tx)`
(which returns false from `Add` when the transaction is there), then the
write-locked assignment (after which `Add` returns true). -/
def Mempool.Add.step (P : Primitives) (tx : Transaction) (m : Mempool) :
    AddState → Mempool × AddState
  | .start => if m.Has P tx then (m, .returned false) else (m, .absent)
  | .absent => ({ txx := m.txx.set (hexEncode (HashTransaction P tx)) tx }, .returned true)
  | .returned result => (m, .returned result)

/-- Whose critical section runs next: the first `Add(tx)`, the second
`Add(tx)`, or a call of `Clear` (one critical section). -/
inductive Turn where
  | first
  | second
  | clear
deriving DecidableEq, Repr

/-- Two goroutines that each run `Add(tx)` on one mempool, and the lists the
calls of `Clear` have returned so far. -/
structure Race where
  mempool : Mempool
  first : AddState
  second : AddState
  drained : List (List Transaction)
deriving DecidableEq, Repr

def Race.step (P : Primitives) (tx : Transaction) (r : Race) : Turn → Race
  | .first =>
    let s := Mempool.Add.step P tx r.mempool r.first
    { r with mempool := s.1, first := s.2 }
  | .second =>
    let s := Mempool.Add.step P tx r.mempool r.second
    { r with mempool := s.1, second := s.2 }
  | .clear =>
    let s := r.mempool.Clear
    { r with mempool := s.2, drained := r.drained ++ [s.1] }

/-- The critical sections run one after the other in the order of the schedule. -/
def Race.run (P : Primitives) (tx : Transaction) (r : Race) (schedule : List Turn) : Race :=
  schedule.foldl (Race.step P tx) r

/-- Both calls of `Add(tx)` about to start on the mempool `m`. -/
def Race.begin (m : Mempool) : Race :=
  { mempool := m, first := .start, second := .start, drained := [] }

/-- The UTXO was made by `addBlock` from an output of a transaction: it names
the hash of that transaction and the index of the output, carries the output's
amount and is unspent. -/
def UTXOFromOutput (P : Primitives) (u : UTXO) : Prop :=
  ∃ (tx : Transaction) (o : TxOutput), u.Hash = hexEncode (HashTransaction P tx) ∧
    tx.Outputs.get? u.OutIndex = some o ∧ u.Amount = o.Amount ∧ u.Spent = false

/-! ## An executable instance of the primitives

A small, fully computable stand-in for the encoder, the hash and the signature
scheme, on which the definitions above can be run.  Its hash has 32-byte
digests, its private keys are 64 bytes (seed, then public key), its signatures
are 64 bytes, and `edVerify` accepts exactly the signature `edSign` makes. -/

namespace Model

/-- Little-endian bytes of a natural number, `k` of them. -/
def natBytes : Nat → Nat → ByteSeq
  | 0, _ => []
  | k + 1, n => Fin.ofNat (n % 256) :: natBytes k (n / 256)

/-- A signed integer as `k` two's-complement bytes. -/
def intBytes (k : Nat) (x : Int) : ByteSeq := natBytes k (x % 2 ^ (8 * k)).toNat

/-- A byte field: its length, then its bytes. -/
def field (bs : ByteSeq) : ByteSeq := natBytes 2 bs.length ++ bs

def marshalHeader (h : Header) : ByteSeq :=
  intBytes 4 h.Version ++ intBytes 4 h.Height ++ field h.PrevHash ++ field h.RootHash ++
    intBytes 8 h.Timestamp

def marshalInput (i : TxInput) : ByteSeq :=
  field i.PrevTxHash ++ natBytes 4 i.PrevOutIndex ++ field i.PublicKey ++ field i.Signature

def marshalOutput (o : TxOutput) : ByteSeq := intBytes 8 o.Amount ++ field o.Address

def marshalTransaction (tx : Transaction) : ByteSeq :=
  intBytes 4 tx.Version ++ natBytes 2 tx.Inputs.length ++ (tx.Inputs.map marshalInput).flatten ++
    natBytes 2 tx.Outputs.length ++ (tx.Outputs.map marshalOutput).flatten

/-- A polynomial checksum of the message, reduced modulo `2 ^ 256`. -/
def digestNat (bs : ByteSeq) : Nat :=
  bs.foldl (fun acc b => (acc * 257 + b.val + 1) % 2 ^ 256) 7

def sha256 (bs : ByteSeq) : ByteSeq := natBytes 32 (digestNat bs)

def edNewKeyFromSeed (seed : ByteSeq) : ByteSeq := seed ++ sha256 seed

/-- The one signature of `msg` that verifies under `pub`. -/
def signatureOf (pub msg : ByteSeq) : ByteSeq := sha256 (pub ++ msg) ++ sha256 (msg ++ pub)

def edSign (key msg : ByteSeq) : ByteSeq := signatureOf (key.drop 32) msg

def edVerify (pub msg sig : ByteSeq) : Bool := decide (sig = signatureOf pub msg)

def primitives : Primitives :=
  { marshalHeader := marshalHeader, marshalTransaction := marshalTransaction, sha256 := sha256,
    edNewKeyFromSeed := edNewKeyFromSeed, edSign := edSign, edVerify := edVerify }

/-! ### Concrete chains, keys, transactions and blocks -/

def emptyChain : Chain :=
  { txStore := NewMemoryTXStore, utxStore := NewMemoryUTXOStore,
    blockStore := NewMemoryBlockStore, headers := NewHeaderList }

def emptyBlock : Block :=
  { Header := { Version := 0, Height := 0, PrevHash := [], RootHash := [], Timestamp := 0 },
    Transactions := [], PublicKey := [], Signature := [] }

/-- The chain `NewChain` builds over fresh stores. -/
def chain0 : Chain := (NewChain primitives NewMemoryBlockStore NewMemoryTXStore).getD emptyChain

def godSeedBytes : ByteSeq := (hexDecodeString godSeed).getD []

def godKey : PrivateKey := (NewPrivateKeyFromSeedStr primitives godSeed).getD { key := [] }

def godPub : ByteSeq := (godKey.Public.map PublicKey.Bytes).getD []

def genesis : Block := (createGenesisBlock primitives).getD emptyBlock

def genesisTx : Transaction :=
  genesis.Transactions.headD { Version := 0, Inputs := [], Outputs := [] }

/-- An unsigned input that refers to output 0 of the genesis transaction. -/
def genesisInput : TxInput :=
  { PrevTxHash := HashTransaction primitives genesisTx, PrevOutIndex := 0, PublicKey := godPub,
    Signature := [] }

/-- Signs `tx` (whose input signatures are empty) with the god key, as the
tests do, and writes the signature into every input. -/
def signed (tx : Transaction) : Transaction :=
  let sig := ((SignTransaction primitives godKey tx).map Signature.Bytes).getD []
  { tx with Inputs := tx.Inputs.map (fun i => { i with Signature := sig }) }

/-- A signed transaction that spends output 0 of the genesis transaction. -/
def spend (outs : List TxOutput) : Transaction :=
  signed { Version := 1, Inputs := [genesisInput], Outputs := outs }

/-- A block on top of `prev`, signed by `key` with `SignBlock`. -/
def sealBlock (key : PrivateKey) (prev : Block) (height : Int) (txs : List Transaction) : Block :=
  let b : Block :=
    { Header := { Version := 1, Height := height, PrevHash := HashBlock primitives prev,
                  RootHash := [], Timestamp := 0 },
      Transactions := txs, PublicKey := [], Signature := [] }
  ((SignBlock primitives key b).map (fun r => r.2)).getD emptyBlock

def addr : ByteSeq := List.replicate 20 7

/-- The chain after `AddBlock`. -/
def after (c : Chain) (b : Block) : Chain :=
  ((c.AddBlock primitives b).map (fun r => r.2.1)).getD emptyChain

/-- Spends the genesis output: 100 to `addr`, 900 back. -/
def block1 : Block :=
  sealBlock godKey genesis 1
    [spend [{ Amount := 100, Address := addr }, { Amount := 900, Address := addr }]]

/-- The block as validation leaves it. -/
def cleared (b : Block) : Block :=
  { b with Transactions := b.Transactions.map Transaction.clearSignatures }

/-- Spends the genesis output a second time, on top of `block1`. -/
def block2 : Block :=
  sealBlock godKey block1 2 [spend [{ Amount := 1000, Address := addr }]]

/-- One block with two different transactions that both spend the genesis output. -/
def blockTwice : Block :=
  sealBlock godKey genesis 1
    [spend [{ Amount := 1000, Address := addr }], spend [{ Amount := 999, Address := addr }]]

/-- Spends the genesis output of 1000 into two outputs of `2 ^ 62` each. -/
def overflowTx : Transaction :=
  spend [{ Amount := 2 ^ 62, Address := addr }, { Amount := 2 ^ 62, Address := addr }]

def overflowBlock : Block := sealBlock godKey genesis 1 [overflowTx]

/-- A transaction with two inputs, both signed by the god key over the hash of
the transaction with both signatures empty. -/
def twoInputTx : Transaction :=
  signed { Version := 1, Inputs := [genesisInput, { genesisInput with PrevOutIndex := 1 }],
           Outputs := [{ Amount := 1000, Address := addr }] }

/-- A node that listens on `:3000` and has no peers. -/
def node3000 : Node :=
  NewNode { Version := "Blocker-1", ListenAddr := ":3000", PrivateKey := none }

/-- The Version a node listening on `addr` sends. -/
def versionOf (addr : String) : Version :=
  { Version := "Blocker-1", Height := 0, ListenAddr := addr, PeerList := [] }

/-- The signed transaction of `block1`. -/
def spendTx : Transaction :=
  spend [{ Amount := 100, Address := addr }, { Amount := 900, Address := addr }]

/-- A mempool that holds the transaction of `block1` and `overflowTx`. -/
def mempool2 : Mempool :=
  ((NewMempool.Add primitives spendTx).2.Add primitives overflowTx).2

/-- A block without transactions on top of the genesis block whose header
carries a `RootHash` of 32 bytes, as `util.RandomBlock` makes it; signed with
`SignBlock`. -/
def rootedBlock : Block :=
  let b : Block :=
    { Header := { Version := 1, Height := 1, PrevHash := HashBlock primitives genesis,
                  RootHash := List.replicate 32 9, Timestamp := 0 },
      Transactions := [], PublicKey := [], Signature := [] }
  ((SignBlock primitives godKey b).map (fun r => r.2)).getD emptyBlock

/-- Spends the genesis output of 1000 into an output of 2000 and one of -1000. -/
def negativeTx : Transaction :=
  spend [{ Amount := 2000, Address := addr }, { Amount := -1000, Address := addr }]

def negativeBlock : Block := sealBlock godKey genesis 1 [negativeTx]

/-- Spends the genesis output of 1000 into outputs of `-2 ^ 63` and `-1`. -/
def wrappingTx : Transaction :=
  spend [{ Amount := -2 ^ 63, Address := addr }, { Amount := -1, Address := addr }]

/-- The chain after `overflowBlock`: it holds the two UTXOs of `2 ^ 62` that the
outputs of `overflowTx` made. -/
def richChain : Chain := after chain0 overflowBlock

/-- An unsigned input at the given position that refers to `overflowTx` as stored. -/
def richInput (index : Nat) : TxInput :=
  { PrevTxHash := HashTransaction primitives overflowTx.clearSignatures, PrevOutIndex := index,
    PublicKey := godPub, Signature := [] }

/-- The god key's signature of the transaction as it is. -/
def signatureFor (tx : Transaction) : ByteSeq :=
  ((SignTransaction primitives godKey tx).map Signature.Bytes).getD []

/-- A transaction with two inputs, the two UTXOs of `2 ^ 62`, and one output of
1.  The second input is signed over the transaction with both signatures
empty, the first over the transaction that carries the second signature, which
is what `VerifyTransaction` checks. -/
def twoRichInputsTx : Transaction :=
  let unsigned : Transaction :=
    { Version := 1, Inputs := [richInput 0, richInput 1],
      Outputs := [{ Amount := 1, Address := addr }] }
  let sig1 := signatureFor unsigned
  let half : Transaction :=
    { unsigned with Inputs := [richInput 0, { richInput 1 with Signature := sig1 }] }
  let sig0 := signatureFor half
  { unsigned with
    Inputs := [{ richInput 0 with Signature := sig0 }, { richInput 1 with Signature := sig1 }] }

/-- A block without transactions on top of the genesis block. -/
def plainBlock : Block := sealBlock godKey genesis 1 []

end Model

/-! # Theorems -/

/-! ## Stores -/

theorem GoMap.get_set_self {V : Type} (m : GoMap V) (k : String) (v : V) :
    (m.set k v).get k = some v := by
  simp [GoMap.set, GoMap.get]

theorem GoMap.get_erase_ne {V : Type} (m : GoMap V) (k k1 : String) (h : k ≠ k1) :
    (m.erase k).get k1 = m.get k1 := by
  induction m with
  | nil => rfl
  | cons p rest ih =>
    obtain ⟨k2, v⟩ := p
    by_cases h2 : k2 = k
    · subst h2
      simp [GoMap.erase, GoMap.get, ih, h]
    · by_cases h3 : k2 = k1
      · subst h3
        simp [GoMap.erase, GoMap.get, h2]
      · simp [GoMap.erase, GoMap.get, ih, h2, h3]

theorem GoMap.get_set_ne {V : Type} (m : GoMap V) (k k1 : String) (v : V) (h : k ≠ k1) :
    (m.set k v).get k1 = m.get k1 := by
  simp [GoMap.set, GoMap.get, h, GoMap.get_erase_ne]

/-! ## Height -/

theorem Chain.addBlock_Height (P : Primitives) (c : Chain) (b : Block) :
    (c.addBlock P b).Height = c.Height + 1 := by
  simp [Chain.addBlock, Chain.Height, HeaderList.Height, HeaderList.Len, HeaderList.Add]

theorem NewChain_Height (P : Primitives) (bs : MemoryBlockStore) (ts : MemoryTXStore) (c : Chain)
    (h : NewChain P bs ts = some c) : c.Height = 0 := by
  unfold NewChain at h
  split at h
  · simp at h
  · simp only [Option.some.injEq] at h
    subst h
    rw [Chain.addBlock_Height]
    simp [Chain.Height, HeaderList.Height, HeaderList.Len, NewHeaderList]

theorem Chain.AddBlock_error (P : Primitives) (c : Chain) (b : Block) (e : ChainError)
    (c1 : Chain) (b1 : Block) (h : c.AddBlock P b = some (some e, c1, b1)) : c1 = c := by
  unfold Chain.AddBlock at h
  split at h
  · simp at h
  · simp only [Option.some.injEq, Prod.mk.injEq] at h
    exact h.2.1.symm
  · simp at h

theorem Chain.AddBlock_ok (P : Primitives) (c : Chain) (b : Block)
    (c1 : Chain) (b1 : Block) (h : c.AddBlock P b = some (none, c1, b1)) :
    c.ValidateBlock P b = some (none, b1) ∧ c1 = c.addBlock P b1 := by
  unfold Chain.AddBlock at h
  split at h
  · simp at h
  · simp at h
  · rename_i b2 hv
    simp only [Option.some.injEq, Prod.mk.injEq, true_and] at h
    obtain ⟨h1, h2⟩ := h
    subst h2
    exact ⟨hv, h1.symm⟩

theorem Chain.AddBlock_Height (P : Primitives) (c : Chain) (b : Block) (err : Option ChainError)
    (c1 : Chain) (b1 : Block) (h : c.AddBlock P b = some (err, c1, b1)) :
    c1.Height = c.Height + (if err = none then 1 else 0) := by
  cases err with
  | none =>
    rw [(Chain.AddBlock_ok P c b c1 b1 h).2, Chain.addBlock_Height]
    simp
  | some e =>
    rw [Chain.AddBlock_error P c b e c1 b1 h]
    simp

theorem Chain.addBlocks_Height (P : Primitives) (blocks : List Block) :
    ∀ (c c2 : Chain) (n : Nat), Chain.addBlocks P c blocks = some (c2, n) →
      c2.Height = c.Height + n := by
  induction blocks with
  | nil =>
    intro c c2 n h
    simp only [Chain.addBlocks, Option.some.injEq, Prod.mk.injEq] at h
    obtain ⟨h1, h2⟩ := h
    subst h1 h2
    simp
  | cons b rest ih =>
    intro c c2 n h
    unfold Chain.addBlocks at h
    split at h
    · simp at h
    · rename_i err c1 b1 hadd
      split at h
      · simp at h
      · rename_i c3 m hrest
        simp only [Option.some.injEq, Prod.mk.injEq] at h
        obtain ⟨h1, h2⟩ := h
        subst h1 h2
        rw [ih c1 c3 m hrest, Chain.AddBlock_Height P c b err c1 b1 hadd]
        split
        · simp
          omega
        · simp

/-- C2. A chain built by `NewChain` has height 0; after a run of `AddBlock`
calls of which exactly `n` returned no error its height is `n`, so it is never
negative; and a call that returns an error leaves the height as it was. -/
theorem height_counts_accepted_blocks (P : Primitives) (bs : MemoryBlockStore)
    (ts : MemoryTXStore) (c0 : Chain) (h0 : NewChain P bs ts = some c0) :
    c0.Height = 0 ∧
    (∀ (blocks : List Block) (c : Chain) (n : Nat),
      Chain.addBlocks P c0 blocks = some (c, n) → c.Height = n ∧ 0 ≤ c.Height) ∧
    (∀ (c : Chain) (b : Block) (e : ChainError) (c1 : Chain) (b1 : Block),
      c.AddBlock P b = some (some e, c1, b1) → c1.Height = c.Height) := by
  have hz := NewChain_Height P bs ts c0 h0
  refine ⟨hz, ?_, ?_⟩
  · intro blocks c n h
    have := Chain.addBlocks_Height P blocks c0 c n h
    rw [hz] at this
    omega
  · intro c b e c1 b1 h
    rw [Chain.AddBlock_error P c b e c1 b1 h]

/-- C3. When `AddBlock` returns an error the chain is exactly as before the
call: header list, block store, transaction store and UTXO store. -/
theorem addBlock_error_leaves_chain_unchanged (P : Primitives) (c : Chain) (b : Block)
    (e : ChainError) (c1 : Chain) (b1 : Block) (h : c.AddBlock P b = some (some e, c1, b1)) :
    c1 = c ∧ c1.headers = c.headers ∧ c1.blockStore = c.blockStore ∧
      c1.txStore = c.txStore ∧ c1.utxStore = c.utxStore := by
  have hc := Chain.AddBlock_error P c b e c1 b1 h
  subst hc
  exact ⟨rfl, rfl, rfl, rfl, rfl⟩


/-! ## The tip of the chain -/

theorem Chain.addBlock_TipStored (P : Primitives) (c : Chain) (b : Block) :
    TipStored P (c.addBlock P b) b := by
  refine ⟨c.headers.headers, ?_, ?_⟩
  · simp [Chain.addBlock, HeaderList.Add]
  · simp [Chain.addBlock, MemoryBlockStore.Put, MemoryBlockStore.Get, HashBlock,
      GoMap.get_set_self]

theorem Reachable.tipStored (P : Primitives) (c : Chain) (hc : Reachable P c) :
    ∃ tip, TipStored P c tip := by
  induction hc with
  | init c h =>
    unfold NewChain at h
    split at h
    · simp at h
    · rename_i g _
      simp only [Option.some.injEq] at h
      subst h
      exact ⟨g, Chain.addBlock_TipStored P _ g⟩
  | step c b err c1 b1 _ h ih =>
    cases err with
    | none =>
      rw [(Chain.AddBlock_ok P c b c1 b1 h).2]
      exact ⟨b1, Chain.addBlock_TipStored P c b1⟩
    | some e =>
      rw [Chain.AddBlock_error P c b e c1 b1 h]
      exact ih

theorem TipStored.GetBlockByHeight (P : Primitives) (c : Chain) (tip : Block)
    (h : TipStored P c tip) : c.GetBlockByHeight P c.Height = some (.ok tip) := by
  obtain ⟨init, hh, hs⟩ := h
  have hH : c.Height = (init.length : Int) := by
    simp [Chain.Height, HeaderList.Height, HeaderList.Len, hh]
  have hget : c.headers.Get c.Height = some tip.Header := by
    unfold HeaderList.Get
    rw [if_neg (by simp [Chain.Height]), hH, if_neg (by omega)]
    simp [hh]
  unfold Chain.GetBlockByHeight
  rw [if_neg (by simp), hget]
  simp [Chain.GetBlockByHash, hs]

/-- C6. In every reachable chain state the block at the tip is found, and a
block whose `PrevHash` differs from the hash of that tip block makes both
`ValidateBlock` and `AddBlock` return an error (whatever its signatures and
Merkle root are); chain and block are left as they were. -/
theorem wrong_prevHash_is_rejected (P : Primitives) (c : Chain) (hc : Reachable P c) :
    ∃ tip : Block, c.GetBlockByHeight P c.Height = some (.ok tip) ∧
      ∀ b : Block, b.Header.PrevHash ≠ HashBlock P tip →
        (∃ e, c.ValidateBlock P b = some (some e, b)) ∧
        (∃ e, c.AddBlock P b = some (some e, c, b)) := by
  obtain ⟨tip, ht⟩ := Reachable.tipStored P c hc
  have hg := TipStored.GetBlockByHeight P c tip ht
  refine ⟨tip, hg, ?_⟩
  intro b hb
  have hv : ∃ e, c.ValidateBlock P b = some (some e, b) := by
    unfold Chain.ValidateBlock
    by_cases hs : VerifyBlock P b = true
    · refine ⟨.prevHashMismatch, ?_⟩
      simp [hs, hg, hb]
    · refine ⟨.blockSignatureInvalid, ?_⟩
      simp [hs]
  refine ⟨hv, ?_⟩
  obtain ⟨e, he⟩ := hv
  exact ⟨e, by simp [Chain.AddBlock, he]⟩

namespace Model

theorem height_counts_accepted_blocks_witness :
    NewChain primitives NewMemoryBlockStore NewMemoryTXStore = some chain0 ∧
    Chain.addBlocks primitives chain0 [block1, block1] = some (after chain0 block1, 1) ∧
    (after chain0 block1).Height = 1 :=
  ⟨by decide!, by decide!,
    ((height_counts_accepted_blocks primitives NewMemoryBlockStore NewMemoryTXStore chain0
      (by decide!)).2.1 [block1, block1] (after chain0 block1) 1 (by decide!)).1⟩

theorem addBlock_error_leaves_chain_unchanged_witness :
    (after chain0 block1).AddBlock primitives block1 =
      some (some .prevHashMismatch, after chain0 block1, block1) ∧
    (after chain0 block1).headers.headers.length = 2 :=
  ⟨by decide!,
    (addBlock_error_leaves_chain_unchanged primitives (after chain0 block1) block1
      .prevHashMismatch (after chain0 block1) block1 (by decide!)).2.1 ▸ (by decide!)⟩

theorem wrong_prevHash_is_rejected_witness :
    Reachable primitives chain0 ∧
    ∃ tip : Block, chain0.GetBlockByHeight primitives chain0.Height = some (.ok tip) ∧
      ∀ b : Block, b.Header.PrevHash ≠ HashBlock primitives tip →
        (∃ e, chain0.ValidateBlock primitives b = some (some e, b)) ∧
        (∃ e, chain0.AddBlock primitives b = some (some e, chain0, b)) :=
  ⟨Reachable.init chain0 (by decide!),
    wrong_prevHash_is_rejected primitives chain0 (Reachable.init chain0 (by decide!))⟩

end Model

/-! ## Merkle tree -/

theorem pairUp_length (P : Primitives) : ∀ nl : List ByteSeq,
    (pairUp P nl).length = (nl.length + 1) / 2
  | [] => by simp [pairUp]
  | [_] => by simp [pairUp]
  | _ :: _ :: rest => by
    simp only [pairUp, List.length_cons, pairUp_length P rest]
    omega

theorem buildIntermediate_isSome (P : Primitives) : ∀ (fuel : Nat) (nl : List ByteSeq),
    2 ≤ nl.length → nl.length ≤ fuel → ∃ x, buildIntermediate P fuel nl = some (P.sha256 x) := by
  intro fuel
  induction fuel with
  | zero =>
    intro nl h2 h0
    omega
  | succ fuel ih =>
    intro nl h2 hf
    unfold buildIntermediate
    split
    · exact ⟨_, rfl⟩
    · rename_i hne
      have h3 : 3 ≤ nl.length := by
        match nl, h2, hne with
        | [a, b], _, hne => exact absurd rfl (hne a b)
        | _ :: _ :: _ :: _, _, _ => simp
      apply ih
      · rw [pairUp_length]
        omega
      · rw [pairUp_length]
        omega

theorem merkleLeafs_length (cs : List ByteSeq) (h : cs ≠ []) : 2 ≤ (merkleLeafs cs).length := by
  have hpos : 0 < cs.length := List.length_pos.mpr h
  unfold merkleLeafs
  split
  · simp
    omega
  · omega

theorem NewTree_isSome (P : Primitives) (cs : List ByteSeq) (h : cs ≠ []) :
    ∃ x, NewTree P cs = some { leafs := merkleLeafs cs, merkleRoot := P.sha256 x } ∧
      MerkleTree.VerifyTree P { leafs := merkleLeafs cs, merkleRoot := P.sha256 x } = true := by
  obtain ⟨x, hx⟩ := buildIntermediate_isSome P (merkleLeafs cs).length (merkleLeafs cs)
    (merkleLeafs_length cs h) (le_refl _)
  refine ⟨x, ?_, ?_⟩
  · unfold NewTree
    rw [if_neg (by simpa using h)]
    simp [hx]
  · simp [MerkleTree.VerifyTree, hx]

theorem VerifyRootHash_true (P : Primitives) (b : Block) (h : VerifyRootHash P b = true) :
    b.Header.RootHash ≠ [] ∧
      some b.Header.RootHash = merkleRootOf P (b.Transactions.map (HashTransaction P)) := by
  unfold VerifyRootHash at h
  split at h
  · simp at h
  · rename_i t ht
    dsimp only at h
    split at h
    · simp at h
    · rename_i hlen
      split at h
      · simp at h
      · simp only [decide_eq_true_eq] at h
        refine ⟨by simpa using hlen, ?_⟩
        have hn : NewTree P (b.Transactions.map (HashTransaction P)) = some t := ht
        simp [merkleRootOf, hn, h]

/-- C9. A block with at least one transaction whose header `RootHash` is empty
or differs from the Merkle root of its transaction hashes fails `VerifyBlock`,
and `ValidateBlock` and `AddBlock` return an error on every chain, whatever the
block's public key and signature are. -/
theorem bad_rootHash_is_rejected (P : Primitives) (c : Chain) (b : Block)
    (htx : 0 < b.Transactions.length)
    (hroot : b.Header.RootHash = [] ∨
      some b.Header.RootHash ≠ merkleRootOf P (b.Transactions.map (HashTransaction P))) :
    VerifyBlock P b = false ∧
    c.ValidateBlock P b = some (some .blockSignatureInvalid, b) ∧
    c.AddBlock P b = some (some .blockSignatureInvalid, c, b) := by
  have hr : VerifyRootHash P b = false := by
    by_contra hne
    have ht := VerifyRootHash_true P b (by simpa using hne)
    rcases hroot with h | h
    · exact ht.1 h
    · exact h ht.2
  have hv : VerifyBlock P b = false := by
    unfold VerifyBlock
    rw [if_pos ⟨htx, hr⟩]
  have hvb : c.ValidateBlock P b = some (some .blockSignatureInvalid, b) := by
    simp [Chain.ValidateBlock, hv]
  exact ⟨hv, hvb, by simp [Chain.AddBlock, hvb]⟩

/-! ## Signing a block -/

theorem copyInto_of_length (n : Nat) (src : ByteSeq) (h : src.length = n) :
    copyInto n src = src := by
  simp [copyInto, ← h]

theorem GetMerkleTree_congr (P : Primitives) (b b1 : Block)
    (h : b1.Transactions = b.Transactions) : GetMerkleTree P b1 = GetMerkleTree P b := by
  simp [GetMerkleTree, h]

theorem VerifyRootHash_congr (P : Primitives) (b b1 : Block)
    (ht : b1.Transactions = b.Transactions) (hh : b1.Header = b.Header) :
    VerifyRootHash P b1 = VerifyRootHash P b := by
  simp [VerifyRootHash, GetMerkleTree, ht, hh]

theorem VerifyRootHash_of_tree (P : Primitives) (b : Block) (t : MerkleTree)
    (hg : GetMerkleTree P b = some t) (hv : t.VerifyTree P = true)
    (hr : b.Header.RootHash = t.MerkleRoot) (hne : t.MerkleRoot.length ≠ 0) :
    VerifyRootHash P b = true := by
  unfold VerifyRootHash
  rw [hg]
  simp [hv, hr, hne]

theorem SignBlock.withRoot_spec (P : Primitives) (hsha : ∀ x, (P.sha256 x).length = 32)
    (b : Block) :
    ∃ b1, SignBlock.withRoot P b = some b1 ∧ b1.Transactions = b.Transactions ∧
      (0 < b.Transactions.length → VerifyRootHash P b1 = true) := by
  unfold SignBlock.withRoot
  by_cases htx : 0 < b.Transactions.length
  · have hne : b.Transactions.map (HashTransaction P) ≠ [] := by
      intro h
      simp at h
      simp [h] at htx
    obtain ⟨x, hx, hvt⟩ := NewTree_isSome P _ hne
    have hg : GetMerkleTree P b = some _ := hx
    rw [if_pos htx, hg]
    refine ⟨_, rfl, rfl, ?_⟩
    intro _
    have hlen : (P.sha256 x).length ≠ 0 := by rw [hsha]; decide
    exact VerifyRootHash_of_tree P _ _ hx hvt rfl hlen
  · rw [if_neg htx]
    exact ⟨b, rfl, rfl, fun h => absurd h htx⟩

/-- C8. After `SignBlock(k, b)` with a key made from a 32-byte seed, the block
carries the key's 32-byte public key and the returned 64-byte signature,
`VerifyBlock` is true, and when the block has a transaction `VerifyRootHash` is
true and the header's `RootHash` is the Merkle root of the transaction hashes
in block order. -/
theorem signBlock_then_verifyBlock (P : Primitives) (hed : EdCorrect P)
    (hsha : ∀ x, (P.sha256 x).length = 32) (seed : ByteSeq) (k : PrivateKey)
    (hk : NewPrivateKeyFromSeed P seed = some k) (b : Block) :
    ∃ (sig : Signature) (pub : PublicKey) (b1 : Block),
      SignBlock P k b = some (sig, b1) ∧ k.Public = some pub ∧
      b1.PublicKey = pub.Bytes ∧ b1.PublicKey.length = 32 ∧
      b1.Signature = sig.Bytes ∧ b1.Signature.length = 64 ∧
      b1.Transactions = b.Transactions ∧
      VerifyBlock P b1 = true ∧
      (0 < b.Transactions.length →
        VerifyRootHash P b1 = true ∧
        some b1.Header.RootHash = merkleRootOf P (b.Transactions.map (HashTransaction P))) := by
  unfold NewPrivateKeyFromSeed at hk
  split at hk
  · simp at hk
  · rename_i hseed
    simp only [SeedLen, ne_eq, Decidable.not_not] at hseed
    simp only [Option.some.injEq] at hk
    subst hk
    have hkl := hed.key_length seed hseed
    obtain ⟨b1, hw, htx, hroot⟩ := SignBlock.withRoot_spec P hsha b
    have hdrop : ((P.edNewKeyFromSeed seed).drop 32).length = 32 := by simp [hkl]
    have hpub : PrivateKey.Public { key := P.edNewKeyFromSeed seed } =
        some { key := (P.edNewKeyFromSeed seed).drop 32 } := by
      simp [PrivateKey.Public, PrivKeyLen, PubKeyLen, hkl, copyInto_of_length _ _ hdrop]
    have hsign : PrivateKey.Sign P { key := P.edNewKeyFromSeed seed } (HashBlock P b1) =
        some { value := P.edSign (P.edNewKeyFromSeed seed) (HashBlock P b1) } := by
      simp [PrivateKey.Sign, PrivKeyLen, hkl]
    have hsl := hed.sign_length (P.edNewKeyFromSeed seed) (HashBlock P b1) hkl
    have hrh : 0 < b.Transactions.length →
        VerifyRootHash P (SignBlock.sealed P (P.edNewKeyFromSeed seed) b1) = true := by
      intro hpos
      rw [VerifyRootHash_congr P b1 (SignBlock.sealed P (P.edNewKeyFromSeed seed) b1) rfl rfl]
      exact hroot hpos
    refine ⟨_, _, SignBlock.sealed P (P.edNewKeyFromSeed seed) b1,
      ?_, hpub, rfl, hdrop, rfl, hsl, htx, ?_, ?_⟩
    · simp [SignBlock, hw, hsign, hpub, PublicKey.Bytes, Signature.Bytes, SignBlock.sealed]
    · unfold VerifyBlock
      rw [if_neg, if_neg]
      · simpa [Signature.Verify, HashBlock, SignBlock.sealed] using
          hed.verify_sign seed (HashBlock P b1) hseed
      · simp [PubKeyLen, SignatureLen, hdrop, hsl, SignBlock.sealed]
      · rintro ⟨hpos, hfalse⟩
        have hpos1 : 0 < b.Transactions.length := by
          simpa [htx, SignBlock.sealed] using hpos
        simp [hrh hpos1] at hfalse
    · intro hpos
      refine ⟨hrh hpos, ?_⟩
      have := (VerifyRootHash_true P _ (hrh hpos)).2
      simpa [htx, SignBlock.sealed] using this


namespace Model

theorem natBytes_length : ∀ (k n : Nat), (natBytes k n).length = k
  | 0, _ => rfl
  | k + 1, n => by simp [natBytes, natBytes_length k]

theorem sha256_length (x : ByteSeq) : (primitives.sha256 x).length = 32 :=
  natBytes_length 32 _

theorem edCorrect : EdCorrect primitives where
  key_length := by
    intro seed h
    have := sha256_length seed
    simp only [primitives] at this
    simp [primitives, edNewKeyFromSeed, h, this]
  sign_length := by
    intro key msg _
    have h1 := sha256_length (key.drop 32 ++ msg)
    have h2 := sha256_length (msg ++ key.drop 32)
    simp only [primitives] at h1 h2
    simp [primitives, edSign, signatureOf, h1, h2]
  verify_sign := by
    intro seed msg _
    simp [primitives, edVerify, edSign]

theorem bad_rootHash_is_rejected_witness :
    0 < block1.Transactions.length ∧
    VerifyBlock primitives { block1 with Header := { block1.Header with RootHash := [] } } = false ∧
    chain0.ValidateBlock primitives { block1 with Header := { block1.Header with RootHash := [] } }
      = some (some .blockSignatureInvalid,
          { block1 with Header := { block1.Header with RootHash := [] } }) ∧
    chain0.AddBlock primitives { block1 with Header := { block1.Header with RootHash := [] } }
      = some (some .blockSignatureInvalid, chain0,
          { block1 with Header := { block1.Header with RootHash := [] } }) :=
  ⟨by decide!,
    bad_rootHash_is_rejected primitives chain0
      { block1 with Header := { block1.Header with RootHash := [] } } (by decide!)
      (Or.inl rfl)⟩

theorem signBlock_then_verifyBlock_witness :
    NewPrivateKeyFromSeed primitives godSeedBytes = some godKey ∧
    ∃ (sig : Signature) (pub : PublicKey) (b1 : Block),
      SignBlock primitives godKey { block1 with PublicKey := [], Signature := [] }
        = some (sig, b1) ∧ godKey.Public = some pub ∧
      b1.PublicKey = pub.Bytes ∧ b1.PublicKey.length = 32 ∧
      b1.Signature = sig.Bytes ∧ b1.Signature.length = 64 ∧
      b1.Transactions = block1.Transactions ∧
      VerifyBlock primitives b1 = true ∧
      (0 < block1.Transactions.length →
        VerifyRootHash primitives b1 = true ∧
        some b1.Header.RootHash =
          merkleRootOf primitives (block1.Transactions.map (HashTransaction primitives))) :=
  ⟨by decide!,
    signBlock_then_verifyBlock primitives edCorrect sha256_length godSeedBytes godKey
      (by decide!) { block1 with PublicKey := [], Signature := [] }⟩

end Model

/-! ## Store keys are injective -/

theorem hexDigit_injOn : ∀ a < 16, ∀ b < 16, hexDigit a = hexDigit b → a = b := by decide

theorem hexDigit_ne_underscore : ∀ a < 16, hexDigit a ≠ '_' := by decide

theorem hexByte_inj (a b : Byte) (h : hexByte a = hexByte b) : a = b := by
  simp only [hexByte, List.cons.injEq, and_true] at h
  have h1 := hexDigit_injOn _ (by omega) _ (by omega) h.1
  have h2 := hexDigit_injOn _ (Nat.mod_lt _ (by decide)) _ (Nat.mod_lt _ (by decide)) h.2
  apply Fin.ext
  omega

theorem hexChars_inj : ∀ a b : ByteSeq, hexChars a = hexChars b → a = b
  | [], [] => fun _ => rfl
  | [], _ :: _ => fun h => by simp [hexChars, hexByte] at h
  | _ :: _, [] => fun h => by simp [hexChars, hexByte] at h
  | x :: xs, y :: ys => fun h => by
    simp only [hexChars, hexByte, List.cons_append, List.nil_append, List.cons.injEq] at h
    have hxy : x = y := hexByte_inj x y (by simp [hexByte, h.1, h.2.1])
    rw [hxy, hexChars_inj xs ys h.2.2]

theorem hexEncode_inj (a b : ByteSeq) (h : hexEncode a = hexEncode b) : a = b := by
  apply hexChars_inj
  exact congrArg String.data h

theorem underscore_not_mem_hexChars : ∀ bs : ByteSeq, '_' ∉ hexChars bs
  | [] => by simp [hexChars]
  | b :: bs => by
    have h1 := hexDigit_ne_underscore (b.val / 16) (by omega)
    have h2 := hexDigit_ne_underscore (b.val % 16) (Nat.mod_lt _ (by decide))
    simp only [hexChars, hexByte, List.cons_append, List.nil_append, List.mem_cons, not_or]
    exact ⟨fun h => h1 h.symm, fun h => h2 h.symm, underscore_not_mem_hexChars bs⟩

/-- Two texts cut at their first separator agree part by part. -/
theorem append_sep_inj (sep : Char) : ∀ (xs ys r1 r2 : List Char), sep ∉ xs → sep ∉ ys →
    xs ++ sep :: r1 = ys ++ sep :: r2 → xs = ys ∧ r1 = r2
  | [], [], _, _ => fun _ _ h => by simpa using h
  | [], y :: ys, _, _ => fun _ hy h => by
    simp only [List.nil_append, List.cons_append, List.cons.injEq] at h
    exact absurd (h.1 ▸ List.mem_cons_self _ _) hy
  | x :: xs, [], _, _ => fun hx _ h => by
    simp only [List.nil_append, List.cons_append, List.cons.injEq] at h
    exact absurd (h.1 ▸ List.mem_cons_self _ _) hx
  | x :: xs, y :: ys, r1, r2 => fun hx hy h => by
    simp only [List.cons_append, List.cons.injEq] at h
    have := append_sep_inj sep xs ys r1 r2 (fun hm => hx (List.mem_cons_of_mem _ hm))
      (fun hm => hy (List.mem_cons_of_mem _ hm)) h.2
    exact ⟨by rw [h.1, this.1], this.2⟩

theorem digitVal_digitChar : ∀ d < 10, digitVal (Nat.digitChar d) = d := by decide

theorem toDigitsCore_eq_digits : ∀ (fuel n : Nat) (ds : List Char), 0 < n → n < fuel →
    Nat.toDigitsCore 10 fuel n ds = ((Nat.digits 10 n).reverse.map Nat.digitChar) ++ ds := by
  intro fuel
  induction fuel with
  | zero => intro n ds _ h; omega
  | succ fuel ih =>
    intro n ds hn hf
    rw [Nat.digits_def' (by decide) hn]
    unfold Nat.toDigitsCore
    by_cases h0 : n / 10 = 0
    · simp [h0]
    · simp only [h0, if_false]
      rw [ih (n / 10) _ (by omega) (by omega)]
      simp

theorem decodeDigits_toDigits (n : Nat) :
    Nat.ofDigits 10 (((Nat.toDigits 10 n).map digitVal).reverse) = n := by
  by_cases hn : n = 0
  · subst hn
    decide
  · unfold Nat.toDigits
    rw [toDigitsCore_eq_digits (n + 1) n [] (by omega) (by omega)]
    have hmap : ((Nat.digits 10 n).reverse.map Nat.digitChar).map digitVal
        = (Nat.digits 10 n).reverse := by
      rw [List.map_map]
      conv_rhs => rw [← List.map_id (Nat.digits 10 n).reverse]
      apply List.map_congr_left
      intro d hd
      have : d < 10 := Nat.digits_lt_base (by decide) (List.mem_reverse.mp hd)
      simpa using digitVal_digitChar d this
    simp only [List.append_nil, hmap, List.reverse_reverse]
    exact Nat.ofDigits_digits 10 n

theorem natToString_inj (m n : Nat) (h : toString m = toString n) : m = n := by
  have h1 : Nat.toDigits 10 m = Nat.toDigits 10 n := by
    have : (Nat.repr m).data = (Nat.repr n).data := congrArg String.data h
    simpa [Nat.repr, List.asString] using this
  rw [← decodeDigits_toDigits m, ← decodeDigits_toDigits n, h1]

theorem utxoKey_inj (h1 h2 : ByteSeq) (i j : Nat)
    (h : utxoKey (hexEncode h1) i = utxoKey (hexEncode h2) j) : h1 = h2 ∧ i = j := by
  have hd : hexChars h1 ++ '_' :: (toString i).data = hexChars h2 ++ '_' :: (toString j).data := by
    have := congrArg String.data h
    simpa [utxoKey, hexEncode] using this
  have := append_sep_inj '_' _ _ _ _ (underscore_not_mem_hexChars h1)
    (underscore_not_mem_hexChars h2) hd
  exact ⟨hexChars_inj _ _ this.1, natToString_inj i j (String.ext this.2)⟩


/-! ## What validation leaves behind -/

theorem VerifyTransaction.loop_true (P : Primitives) (tx : Transaction) :
    ∀ (rest done : List TxInput) (tx1 : Transaction),
      VerifyTransaction.loop P tx done rest = some (true, tx1) →
      tx1 = { tx with Inputs := done ++ rest.map TxInput.clearSignature } := by
  intro rest
  induction rest with
  | nil =>
    intro done tx1 h
    simp only [VerifyTransaction.loop, Option.some.injEq, Prod.mk.injEq, true_and] at h
    simp [← h]
  | cons input rest ih =>
    intro done tx1 h
    unfold VerifyTransaction.loop at h
    split at h
    · simp at h
    · dsimp only at h
      split at h
      · simp at h
      · have := ih _ _ h
        simpa using this

theorem VerifyTransaction_true (P : Primitives) (tx tx1 : Transaction)
    (h : VerifyTransaction P tx = some (true, tx1)) : tx1 = tx.clearSignatures := by
  have := VerifyTransaction.loop_true P tx tx.Inputs [] tx1 h
  simpa [Transaction.clearSignatures] using this

theorem Chain.ValidateTransaction_ok (P : Primitives) (c : Chain) (tx tx1 : Transaction)
    (h : c.ValidateTransaction P tx = some (none, tx1)) :
    VerifyTransaction P tx = some (true, tx1) ∧ tx1 = tx.clearSignatures := by
  unfold Chain.ValidateTransaction at h
  split at h
  · simp at h
  · simp at h
  · rename_i tx2 hv
    have htx : tx2 = tx1 := by
      split at h
      · simp at h
      · dsimp only at h
        split at h
        · simp at h
        · simpa using h
    subst htx
    exact ⟨hv, VerifyTransaction_true P tx tx2 hv⟩

theorem Chain.ValidateBlock.loop_ok (P : Primitives) (c : Chain) :
    ∀ (rest done txs : List Transaction),
      Chain.ValidateBlock.loop P c done rest = some (none, txs) →
      txs = done ++ rest.map Transaction.clearSignatures := by
  intro rest
  induction rest with
  | nil =>
    intro done txs h
    simp only [Chain.ValidateBlock.loop, Option.some.injEq, Prod.mk.injEq, true_and] at h
    simp [← h]
  | cons tx rest ih =>
    intro done txs h
    unfold Chain.ValidateBlock.loop at h
    split at h
    · simp at h
    · simp at h
    · rename_i tx1 hv
      have := ih _ _ h
      rw [(Chain.ValidateTransaction_ok P c tx tx1 hv).2] at this
      simpa using this

theorem Chain.ValidateBlock_ok (P : Primitives) (c : Chain) (b b1 : Block)
    (h : c.ValidateBlock P b = some (none, b1)) :
    b1 = { b with Transactions := b.Transactions.map Transaction.clearSignatures } := by
  unfold Chain.ValidateBlock at h
  split at h
  · simp at h
  · split at h
    · simp at h
    · simp at h
    · dsimp only at h
      split at h
      · simp at h
      · split at h
        · simp at h
        · rename_i err txs hl
          simp only [Option.some.injEq, Prod.mk.injEq] at h
          obtain ⟨he, hb⟩ := h
          subst he
          have := Chain.ValidateBlock.loop_ok P c _ _ _ hl
          simp [← hb, this]

/-! ## What `addBlock` writes -/

theorem MemoryUTXOStore.Get_Put_same_key (s : MemoryUTXOStore) (u : UTXO) :
    (s.Put u).Get (utxoKey u.Hash u.OutIndex) = some u := by
  simp [MemoryUTXOStore.Put, MemoryUTXOStore.Get, GoMap.get_set_self]

theorem MemoryUTXOStore.Get_Put_other_key (s : MemoryUTXOStore) (u : UTXO) (k : String)
    (h : utxoKey u.Hash u.OutIndex ≠ k) : (s.Put u).Get k = s.Get k := by
  simp [MemoryUTXOStore.Put, MemoryUTXOStore.Get, GoMap.get_set_ne _ _ _ _ h]

theorem Chain.addBlock.putOutputs_frame (P : Primitives) (tx : Transaction) (k : String) :
    ∀ (outs : List TxOutput) (s : MemoryUTXOStore) (it : Nat),
      (∀ j, j < outs.length → utxoKey (hexEncode (HashTransaction P tx)) (it + j) ≠ k) →
      (Chain.addBlock.putOutputs P tx s it outs).Get k = s.Get k := by
  intro outs
  induction outs with
  | nil => intro s it _; rfl
  | cons o rest ih =>
    intro s it h
    unfold Chain.addBlock.putOutputs
    dsimp only
    rw [ih]
    · exact MemoryUTXOStore.Get_Put_other_key _ _ _ (by simpa using h 0 (by simp))
    · intro j hj
      have := h (j + 1) (by simpa using hj)
      rwa [show it + 1 + j = it + (j + 1) by omega]

theorem Chain.addBlock.putOutputs_get (P : Primitives) (tx : Transaction) :
    ∀ (outs : List TxOutput) (s : MemoryUTXOStore) (it j : Nat) (hj : j < outs.length),
      (Chain.addBlock.putOutputs P tx s it outs).Get
          (utxoKey (hexEncode (HashTransaction P tx)) (it + j)) =
        some { Hash := hexEncode (HashTransaction P tx), OutIndex := it + j,
               Amount := (outs.get ⟨j, hj⟩).Amount, Spent := false } := by
  intro outs
  induction outs with
  | nil => intro s it j hj; simp at hj
  | cons o rest ih =>
    intro s it j hj
    unfold Chain.addBlock.putOutputs
    dsimp only
    cases j with
    | zero =>
      rw [Chain.addBlock.putOutputs_frame]
      · exact MemoryUTXOStore.Get_Put_same_key s _
      · intro j _ h
        have := (utxoKey_inj _ _ _ _ h).2
        omega
    | succ j =>
      have := ih (s.Put ⟨hexEncode (HashTransaction P tx), it, o.Amount, false⟩) (it + 1) j
        (by simpa using hj)
      rw [show it + 1 + j = it + (j + 1) by omega] at this
      simpa using this


theorem MemoryTXStore.Get_Put_own_hash (P : Primitives) (s : MemoryTXStore) (tx : Transaction) :
    (s.Put P tx).Get (hexEncode (HashTransaction P tx)) = some tx := by
  simp [MemoryTXStore.Put, MemoryTXStore.Get, GoMap.get_set_self]

theorem MemoryTXStore.Get_Put_other_hash (P : Primitives) (s : MemoryTXStore) (tx : Transaction)
    (k : String) (h : hexEncode (HashTransaction P tx) ≠ k) : (s.Put P tx).Get k = s.Get k := by
  simp [MemoryTXStore.Put, MemoryTXStore.Get, GoMap.get_set_ne _ _ _ _ h]

theorem Chain.addBlock.putTransactions_txStore_frame (P : Primitives) (k : String) :
    ∀ (txs : List Transaction) (ts : MemoryTXStore) (us : MemoryUTXOStore),
      (∀ t ∈ txs, hexEncode (HashTransaction P t) ≠ k) →
      (Chain.addBlock.putTransactions P ts us txs).1.Get k = ts.Get k := by
  intro txs
  induction txs with
  | nil => intro ts us _; rfl
  | cons tx rest ih =>
    intro ts us h
    unfold Chain.addBlock.putTransactions
    rw [ih _ _ (fun t ht => h t (List.mem_cons_of_mem _ ht))]
    exact MemoryTXStore.Get_Put_other_hash P ts tx k (h tx (List.mem_cons_self _ _))

theorem Chain.addBlock.putTransactions_utxStore_frame (P : Primitives) (k : String) :
    ∀ (txs : List Transaction) (ts : MemoryTXStore) (us : MemoryUTXOStore),
      (∀ t ∈ txs, ∀ j, j < t.Outputs.length →
        utxoKey (hexEncode (HashTransaction P t)) j ≠ k) →
      (Chain.addBlock.putTransactions P ts us txs).2.Get k = us.Get k := by
  intro txs
  induction txs with
  | nil => intro ts us _; rfl
  | cons tx rest ih =>
    intro ts us h
    unfold Chain.addBlock.putTransactions
    rw [ih _ _ (fun t ht => h t (List.mem_cons_of_mem _ ht))]
    apply Chain.addBlock.putOutputs_frame
    intro j hj
    simpa using h tx (List.mem_cons_self _ _) j hj

theorem Chain.addBlock.putTransactions_get (P : Primitives) :
    ∀ (txs : List Transaction) (ts : MemoryTXStore) (us : MemoryUTXOStore),
      HashesDistinct P txs → ∀ tx ∈ txs,
        (Chain.addBlock.putTransactions P ts us txs).1.Get (hexEncode (HashTransaction P tx))
          = some tx ∧
        ∀ (j : Nat) (hj : j < tx.Outputs.length),
          (Chain.addBlock.putTransactions P ts us txs).2.Get
              (utxoKey (hexEncode (HashTransaction P tx)) j) =
            some { Hash := hexEncode (HashTransaction P tx), OutIndex := j,
                   Amount := (tx.Outputs.get ⟨j, hj⟩).Amount, Spent := false } := by
  intro txs
  induction txs with
  | nil => intro ts us _ tx h; simp at h
  | cons t rest ih =>
    intro ts us hd tx hmem
    have hdrest : HashesDistinct P rest := fun t1 h1 t2 h2 =>
      hd t1 (List.mem_cons_of_mem _ h1) t2 (List.mem_cons_of_mem _ h2)
    unfold Chain.addBlock.putTransactions
    by_cases hin : tx ∈ rest
    · exact ih _ _ hdrest tx hin
    · have hteq : tx = t := by
        rcases List.mem_cons.mp hmem with h | h
        · exact h
        · exact absurd h hin
      subst hteq
      have hne : ∀ t1 ∈ rest, HashTransaction P t1 ≠ HashTransaction P tx := by
        intro t1 h1 heq
        have := hd t1 (List.mem_cons_of_mem _ h1) tx (List.mem_cons_self _ _) heq
        exact hin (this ▸ h1)
      constructor
      · rw [Chain.addBlock.putTransactions_txStore_frame]
        · exact MemoryTXStore.Get_Put_own_hash P ts tx
        · intro t1 h1 heq
          exact hne t1 h1 (hexEncode_inj _ _ heq)
      · intro j hj
        rw [Chain.addBlock.putTransactions_utxStore_frame]
        · simpa using Chain.addBlock.putOutputs_get P tx tx.Outputs us 0 j hj
        · intro t1 h1 j1 _ heq
          exact hne t1 h1 (utxoKey_inj _ _ _ _ heq).1

/-- C10. When `AddBlock` returns no error then, for every transaction of the
block as it is stored (input signatures cleared by validation), the
transaction store returns it under the hexadecimal text of its hash, and the
UTXO store holds for each output index `j`, under that text followed by `_j`, an
unspent UTXO with that hash text, index `j` and the output's amount.  The
transactions of the block are assumed to have pairwise different hashes. -/
theorem accepted_block_is_stored (P : Primitives) (c : Chain) (b : Block) (c1 : Chain)
    (b1 : Block) (h : c.AddBlock P b = some (none, c1, b1))
    (hd : HashesDistinct P b1.Transactions) :
    b1.Transactions = b.Transactions.map Transaction.clearSignatures ∧
    ∀ tx ∈ b1.Transactions,
      c1.txStore.Get (hexEncode (HashTransaction P tx)) = some tx ∧
      ∀ (j : Nat) (hj : j < tx.Outputs.length),
        c1.utxStore.Get (utxoKey (hexEncode (HashTransaction P tx)) j) =
          some { Hash := hexEncode (HashTransaction P tx), OutIndex := j,
                 Amount := (tx.Outputs.get ⟨j, hj⟩).Amount, Spent := false } := by
  obtain ⟨hv, hc⟩ := Chain.AddBlock_ok P c b c1 b1 h
  refine ⟨by rw [Chain.ValidateBlock_ok P c b b1 hv], ?_⟩
  intro tx htx
  subst hc
  exact Chain.addBlock.putTransactions_get P b1.Transactions c.txStore c.utxStore hd tx htx

namespace Model

theorem accepted_block_is_stored_witness :
    chain0.AddBlock primitives block1 = some (none, after chain0 block1, cleared block1) ∧
    (cleared block1).Transactions = block1.Transactions.map Transaction.clearSignatures ∧
    ∀ tx ∈ (cleared block1).Transactions,
      (after chain0 block1).txStore.Get (hexEncode (HashTransaction primitives tx)) = some tx ∧
      ∀ (j : Nat) (hj : j < tx.Outputs.length),
        (after chain0 block1).utxStore.Get
            (utxoKey (hexEncode (HashTransaction primitives tx)) j) =
          some { Hash := hexEncode (HashTransaction primitives tx), OutIndex := j,
                 Amount := (tx.Outputs.get ⟨j, hj⟩).Amount, Spent := false } :=
  ⟨by decide!,
    accepted_block_is_stored primitives chain0 block1 (after chain0 block1) (cleared block1)
      (by decide!) (by unfold HashesDistinct; decide!)⟩

end Model

namespace Model

/-! ## Behaviour on concrete inputs -/

/-- C1. On the chain built by `NewChain`, `AddBlock` accepts `block1`, whose
one transaction has one input with a 64-byte signature.  Afterwards
`GetBlockByHash(HashBlock(block1))` and `GetBlockByHeight(1)` succeed and
return the same block, but that block is not `block1` as it was passed in: the
signature of its transaction input is empty. -/
theorem stored_block_has_cleared_signatures :
    chain0.AddBlock primitives block1 = some (none, after chain0 block1, cleared block1) ∧
    (after chain0 block1).GetBlockByHash (HashBlock primitives block1) = .ok (cleared block1) ∧
    (after chain0 block1).GetBlockByHeight primitives 1 = some (.ok (cleared block1)) ∧
    cleared block1 ≠ block1 ∧
    block1.Transactions.map (fun tx => tx.Inputs.map (fun i => i.Signature.length)) = [[64]] ∧
    (cleared block1).Transactions.map (fun tx => tx.Inputs.map (fun i => i.Signature.length))
      = [[0]] := by
  decide!

/-- C4. The UTXO of the genesis output is spent by the transaction of `block1`,
which `AddBlock` accepts; `block2`, signed and linked to `block1`, spends the
same UTXO again and `AddBlock` accepts it too, the UTXO still being stored as
unspent.  `blockTwice`, one block with two transactions that spend that UTXO,
is accepted as well. -/
theorem double_spend_is_accepted :
    (∀ tx ∈ block1.Transactions ++ block2.Transactions ++ blockTwice.Transactions,
      tx.Inputs.map (fun i => i.PrevTxHash) = [HashTransaction primitives genesisTx]) ∧
    chain0.AddBlock primitives block1 = some (none, after chain0 block1, cleared block1) ∧
    (after chain0 block1).AddBlock primitives block2
      = some (none, after (after chain0 block1) block2, cleared block2) ∧
    ((after (after chain0 block1) block2).utxStore.Get
      (utxoKey (hexEncode (HashTransaction primitives genesisTx)) 0)).map (fun u => u.Spent)
      = some false ∧
    chain0.AddBlock primitives blockTwice
      = some (none, after chain0 blockTwice, cleared blockTwice) := by
  decide!

/-- C5. `overflowTx` is correctly signed and its one input resolves to the
unspent genesis UTXO of amount 1000, while its two outputs of `2 ^ 62` sum to
`2 ^ 63`; the `int64` sum of the outputs wraps to `-2 ^ 63`, so
`ValidateTransaction` returns no error and `AddBlock` accepts the block that
contains the transaction. -/
theorem overflowing_outputs_are_accepted :
    (VerifyTransaction primitives overflowTx).map (fun r => r.1) = some true ∧
    chain0.utxStore.Get (utxoKey (hexEncode genesisInput.PrevTxHash) 0) =
      some { Hash := hexEncode genesisInput.PrevTxHash, OutIndex := 0, Amount := 1000,
             Spent := false } ∧
    (1000 : Int) < (overflowTx.Outputs.map (fun o => o.Amount)).sum ∧
    Chain.ValidateTransaction.sumOutputs 0 overflowTx.Outputs = -2 ^ 63 ∧
    chain0.ValidateTransaction primitives overflowTx = some (none, overflowTx.clearSignatures) ∧
    chain0.AddBlock primitives overflowBlock
      = some (none, after chain0 overflowBlock, cleared overflowBlock) := by
  decide!

/-- C7. `twoInputTx` has two inputs, each with a 32-byte public key and a
64-byte signature that verifies against the hash of the transaction with both
signatures cleared; `VerifyTransaction` returns false on it, because the first
input is checked against the hash taken while the second signature is still in
place. -/
theorem two_input_transaction_fails_verification :
    twoInputTx.Inputs.map (fun i => (i.PublicKey.length, i.Signature.length))
      = [(32, 64), (32, 64)] ∧
    (∀ i ∈ twoInputTx.Inputs, primitives.edVerify i.PublicKey
      (HashTransaction primitives twoInputTx.clearSignatures) i.Signature = true) ∧
    (VerifyTransaction primitives twoInputTx).map (fun r => r.1) = some false := by
  decide!

end Model

/-! ## The UTXO rules of `ValidateTransaction` -/

theorem Chain.ValidateTransaction.sumInputs_clear (c : Chain) :
    ∀ (inputs : List TxInput) (i : Nat) (acc : Int),
      Chain.ValidateTransaction.sumInputs c i acc (inputs.map TxInput.clearSignature) =
        Chain.ValidateTransaction.sumInputs c i acc inputs := by
  intro inputs
  induction inputs with
  | nil => intro i acc; rfl
  | cons input rest ih =>
    intro i acc
    simp only [List.map_cons, Chain.ValidateTransaction.sumInputs, TxInput.clearSignature, ih]

theorem Chain.ValidateTransaction.sumInputs_ok (c : Chain) :
    ∀ (inputs : List TxInput) (i : Nat) (acc : Int),
      (∀ (j : Nat) (hj : j < inputs.length),
        ∃ u, c.inputUTXO (i + j) (inputs.get ⟨j, hj⟩) = some u ∧ u.Spent = false) →
      Chain.ValidateTransaction.sumInputs c i acc inputs =
        .ok (int64SumFrom acc (c.inputAmounts i inputs)) := by
  intro inputs
  induction inputs with
  | nil => intro i acc _; rfl
  | cons input rest ih =>
    intro i acc h
    obtain ⟨u, hu, hs⟩ := h 0 (by simp)
    simp only [Nat.add_zero, List.get_eq_getElem, List.getElem_cons_zero, Chain.inputUTXO] at hu
    have hrest := ih (i + 1) (wrapInt64 (acc + u.Amount)) (by
      intro j hj
      have := h (j + 1) (by simpa using hj)
      simpa [Nat.add_assoc, Nat.add_comm 1 j] using this)
    simp only [Chain.ValidateTransaction.sumInputs, hu, hs, Bool.false_eq_true, if_false, hrest,
      Chain.inputAmounts, Chain.inputUTXO, Option.map_some', Option.getD_some, int64SumFrom,
      List.foldl_cons]

theorem Chain.ValidateTransaction.sumInputs_error (c : Chain) :
    ∀ (inputs : List TxInput) (i : Nat) (acc : Int) (j : Nat) (hj : j < inputs.length),
      (c.inputUTXO (i + j) (inputs.get ⟨j, hj⟩) = none ∨
        ∃ u, c.inputUTXO (i + j) (inputs.get ⟨j, hj⟩) = some u ∧ u.Spent = true) →
      ∃ e, Chain.ValidateTransaction.sumInputs c i acc inputs = .error e := by
  intro inputs
  induction inputs with
  | nil => intro i acc j hj; simp at hj
  | cons input rest ih =>
    intro i acc j hj h
    unfold Chain.ValidateTransaction.sumInputs
    dsimp only
    cases hget : c.utxStore.Get (utxoKey (hexEncode input.PrevTxHash) i) with
    | none => exact ⟨_, rfl⟩
    | some u =>
      dsimp only
      by_cases hs : u.Spent = true
      · rw [if_pos hs]
        exact ⟨_, rfl⟩
      · rw [if_neg hs]
        cases j with
        | zero =>
          exfalso
          simp only [Nat.add_zero, List.get_eq_getElem, List.getElem_cons_zero,
            Chain.inputUTXO, hget] at h
          rcases h with h | ⟨u1, h1, h2⟩
          · simp at h
          · simp only [Option.some.injEq] at h1
            subst h1
            exact hs h2
        | succ j =>
          apply ih (i + 1) _ j (by simpa using hj)
          simpa [Nat.add_assoc, Nat.add_comm 1 j] using h

theorem Chain.ValidateTransaction.sumOutputs_eq : ∀ (outs : List TxOutput) (acc : Int),
    Chain.ValidateTransaction.sumOutputs acc outs =
      int64SumFrom acc (outs.map (fun o => o.Amount))
  | [], _ => rfl
  | o :: rest, acc => by
    simp only [Chain.ValidateTransaction.sumOutputs, List.map_cons, int64SumFrom, List.foldl_cons]
    exact Chain.ValidateTransaction.sumOutputs_eq rest _

theorem wrapInt64_of_range (x : Int) (h0 : 0 ≤ x) (h1 : x < 2 ^ 63) : wrapInt64 x = x := by
  unfold wrapInt64
  have : (x + 2 ^ 63) % 2 ^ 64 = x + 2 ^ 63 := Int.emod_eq_of_lt (by omega) (by omega)
  omega

theorem int64SumFrom_exact : ∀ (xs : List Int) (acc : Int), 0 ≤ acc → (∀ x ∈ xs, 0 ≤ x) →
    acc + xs.sum < 2 ^ 63 → int64SumFrom acc xs = acc + xs.sum
  | [], acc, _, _, _ => by simp [int64SumFrom]
  | x :: rest, acc, h0, hx, hlt => by
    have hx0 : 0 ≤ x := hx x (List.mem_cons_self _ _)
    have hrest : ∀ y ∈ rest, 0 ≤ y := fun y hy => hx y (List.mem_cons_of_mem _ hy)
    have hsum : 0 ≤ rest.sum := List.sum_nonneg hrest
    simp only [List.sum_cons] at hlt
    have hw : wrapInt64 (acc + x) = acc + x := wrapInt64_of_range _ (by omega) (by omega)
    have := int64SumFrom_exact rest (acc + x) (by omega) hrest (by omega)
    simp only [int64SumFrom, List.foldl_cons, hw, List.sum_cons] at this ⊢
    omega


theorem Chain.ValidateTransaction_of_sumInputs (P : Primitives) (c : Chain)
    (tx tx1 : Transaction) (hsig : VerifyTransaction P tx = some (true, tx1)) :
    c.ValidateTransaction P tx =
      match Chain.ValidateTransaction.sumInputs c 0 0 tx.Inputs with
      | .error e => some (some e, tx1)
      | .ok sumInputs =>
        if sumInputs < int64Sum (tx.Outputs.map (fun o => o.Amount)) then
          some (some (.insufficientBalance sumInputs
            (int64Sum (tx.Outputs.map (fun o => o.Amount)))), tx1)
        else some (none, tx1) := by
  have htx1 := VerifyTransaction_true P tx tx1 hsig
  unfold Chain.ValidateTransaction
  rw [hsig]
  dsimp only
  have hin : tx1.Inputs = tx.Inputs.map TxInput.clearSignature := by
    rw [htx1, Transaction.clearSignatures]
  have hout : tx1.Outputs = tx.Outputs := by
    rw [htx1, Transaction.clearSignatures]
  rw [hin, hout, Chain.ValidateTransaction.sumInputs_clear,
    Chain.ValidateTransaction.sumOutputs_eq]
  rfl

/-- The UTXO rules of `ValidateTransaction` with the sums as the code takes
them.  For a transaction whose input signatures verify: when the UTXO store has
no entry under the key of some input position `i` (previous transaction hash in
hexadecimal, `_`, `i`), or the entry there is spent, an error is returned; when
every input resolves to an unspent UTXO and the `int64` sum of the input
amounts is at least the `int64` sum of the output amounts, no error is
returned.  The `int64` sums are the exact sums when no amount is negative and
both exact sums are below `2 ^ 63`. -/
theorem validateTransaction_utxo_rules (P : Primitives) (c : Chain) (tx tx1 : Transaction)
    (hsig : VerifyTransaction P tx = some (true, tx1)) :
    (∀ (i : Nat) (hi : i < tx.Inputs.length),
      c.inputUTXO i (tx.Inputs.get ⟨i, hi⟩) = none →
        ∃ e, c.ValidateTransaction P tx = some (some e, tx1)) ∧
    (∀ (i : Nat) (hi : i < tx.Inputs.length) (u : UTXO),
      c.inputUTXO i (tx.Inputs.get ⟨i, hi⟩) = some u → u.Spent = true →
        ∃ e, c.ValidateTransaction P tx = some (some e, tx1)) ∧
    ((∀ (i : Nat) (hi : i < tx.Inputs.length),
        ∃ u, c.inputUTXO i (tx.Inputs.get ⟨i, hi⟩) = some u ∧ u.Spent = false) →
      (int64Sum (tx.Outputs.map (fun o => o.Amount)) ≤ int64Sum (c.inputAmounts 0 tx.Inputs) →
        c.ValidateTransaction P tx = some (none, tx1)) ∧
      ((∀ a ∈ c.inputAmounts 0 tx.Inputs, 0 ≤ a) → (∀ o ∈ tx.Outputs, 0 ≤ o.Amount) →
        (c.inputAmounts 0 tx.Inputs).sum < 2 ^ 63 →
        (tx.Outputs.map (fun o => o.Amount)).sum < 2 ^ 63 →
        (tx.Outputs.map (fun o => o.Amount)).sum ≤ (c.inputAmounts 0 tx.Inputs).sum →
        c.ValidateTransaction P tx = some (none, tx1))) := by
  have hval := Chain.ValidateTransaction_of_sumInputs P c tx tx1 hsig
  have herr : ∀ (i : Nat) (hi : i < tx.Inputs.length),
      (c.inputUTXO (0 + i) (tx.Inputs.get ⟨i, hi⟩) = none ∨
        ∃ u, c.inputUTXO (0 + i) (tx.Inputs.get ⟨i, hi⟩) = some u ∧ u.Spent = true) →
      ∃ e, c.ValidateTransaction P tx = some (some e, tx1) := by
    intro i hi h
    obtain ⟨e, he⟩ := Chain.ValidateTransaction.sumInputs_error c tx.Inputs 0 0 i hi h
    exact ⟨e, by rw [hval, he]⟩
  have hok : (∀ (i : Nat) (hi : i < tx.Inputs.length),
        ∃ u, c.inputUTXO i (tx.Inputs.get ⟨i, hi⟩) = some u ∧ u.Spent = false) →
      int64Sum (tx.Outputs.map (fun o => o.Amount)) ≤ int64Sum (c.inputAmounts 0 tx.Inputs) →
        c.ValidateTransaction P tx = some (none, tx1) := by
    intro hres hle
    have hsum := Chain.ValidateTransaction.sumInputs_ok c tx.Inputs 0 0
      (by simpa using hres)
    rw [hval, hsum]
    dsimp only
    rw [if_neg (by simpa [int64Sum] using hle)]
  refine ⟨?_, ?_, ?_⟩
  · intro i hi h
    exact herr i hi (Or.inl (by simpa using h))
  · intro i hi u hu hs
    exact herr i hi (Or.inr ⟨u, by simpa using hu, hs⟩)
  · intro hres
    refine ⟨hok hres, ?_⟩
    intro hin hout hlin hlout hle
    apply hok hres
    have h1 := int64SumFrom_exact (c.inputAmounts 0 tx.Inputs) 0 (le_refl _) hin (by simpa using hlin)
    have h2 := int64SumFrom_exact (tx.Outputs.map (fun o => o.Amount)) 0 (le_refl _)
      (by simpa using hout) (by simpa using hlout)
    simp only [int64Sum, h1, h2]
    omega

namespace Model

/-- The UTXO rules at the transaction of `block1` on the fresh chain: its input
resolves to the unspent genesis output and 1000 covers 100 + 900. -/
theorem validateTransaction_utxo_rules_witness :
    VerifyTransaction primitives spendTx = some (true, spendTx.clearSignatures) ∧
    (∀ (i : Nat) (hi : i < spendTx.Inputs.length),
        ∃ u, chain0.inputUTXO i (spendTx.Inputs.get ⟨i, hi⟩) = some u ∧ u.Spent = false) ∧
    chain0.ValidateTransaction primitives spendTx = some (none, spendTx.clearSignatures) :=
  ⟨by decide!, by decide!,
    ((validateTransaction_utxo_rules primitives chain0 spendTx spendTx.clearSignatures
      (by decide!)).2.2 (by decide!)).1 (by decide!)⟩

end Model

/-! ## Mempool -/

theorem GoMap.erase_of_get_none {V : Type} : ∀ (m : GoMap V) (k : String),
    m.get k = none → m.erase k = m
  | [], _, _ => rfl
  | (k1, v) :: rest, k, h => by
    by_cases hk : k1 = k
    · simp [GoMap.get, hk] at h
    · simp only [GoMap.get, hk, if_false] at h
      simp [GoMap.erase, hk, GoMap.erase_of_get_none rest k h]

theorem GoMap.get_none_of_not_mem_keys {V : Type} : ∀ (m : GoMap V) (k : String),
    k ∉ m.keys → m.get k = none
  | [], _, _ => rfl
  | (k1, v) :: rest, k, h => by
    simp only [GoMap.keys, List.map_cons, List.mem_cons, not_or] at h
    have hk : ¬ k1 = k := fun e => h.1 e.symm
    simp only [GoMap.get, hk, if_false]
    exact GoMap.get_none_of_not_mem_keys rest k h.2

theorem GoMap.keys_erase_subset {V : Type} : ∀ (m : GoMap V) (k k1 : String),
    k1 ∈ (m.erase k).keys → k1 ∈ m.keys
  | [], _, _, h => h
  | (k2, v) :: rest, k, k1, h => by
    by_cases hk : k2 = k
    · simp only [GoMap.erase, hk, if_true] at h
      exact List.mem_cons_of_mem _ (GoMap.keys_erase_subset rest k k1 h)
    · simp only [GoMap.erase, hk, if_false, GoMap.keys, List.map_cons, List.mem_cons] at h ⊢
      rcases h with h | h
      · exact Or.inl h
      · exact Or.inr (GoMap.keys_erase_subset rest k k1 h)

theorem GoMap.not_mem_keys_erase {V : Type} : ∀ (m : GoMap V) (k : String),
    k ∉ (m.erase k).keys
  | [], _ => by simp [GoMap.erase, GoMap.keys]
  | (k2, v) :: rest, k => by
    by_cases hk : k2 = k
    · simp only [GoMap.erase, hk, if_true]
      exact GoMap.not_mem_keys_erase rest k
    · simp only [GoMap.erase, hk, if_false, GoMap.keys, List.map_cons, List.mem_cons, not_or]
      exact ⟨fun e => hk e.symm, GoMap.not_mem_keys_erase rest k⟩

theorem GoMap.keys_erase_nodup {V : Type} : ∀ (m : GoMap V) (k : String),
    m.keys.Nodup → (m.erase k).keys.Nodup
  | [], _, h => h
  | (k2, v) :: rest, k, h => by
    simp only [GoMap.keys, List.map_cons, List.nodup_cons] at h
    by_cases hk : k2 = k
    · simp only [GoMap.erase, hk, if_true]
      exact GoMap.keys_erase_nodup rest k h.2
    · simp only [GoMap.erase, hk, if_false, GoMap.keys, List.map_cons, List.nodup_cons]
      exact ⟨fun hm => h.1 (GoMap.keys_erase_subset rest k k2 hm),
        GoMap.keys_erase_nodup rest k h.2⟩

theorem GoMap.keys_set_nodup {V : Type} (m : GoMap V) (k : String) (v : V)
    (h : m.keys.Nodup) : (m.set k v).keys.Nodup := by
  simp only [GoMap.set, GoMap.keys, List.map_cons, List.nodup_cons]
  exact ⟨GoMap.not_mem_keys_erase m k, GoMap.keys_erase_nodup m k h⟩

/-- C12. `Add(tx)` returns true exactly when `Has(tx)` was false before the
call; after it `Has(tx)` is true; a second `Add(tx)` returns false and leaves
the mempool, hence `Len()`, as it was; over the two calls `Len()` grows by one
when the transaction was absent and not at all when it was present.  A mempool
without repeated keys stays so. -/
theorem mempool_add_once (P : Primitives) (m : Mempool) (tx : Transaction) :
    ((m.Add P tx).1 = true ↔ m.Has P tx = false) ∧
    (m.Add P tx).2.Has P tx = true ∧
    ((m.Add P tx).2.Add P tx).1 = false ∧
    ((m.Add P tx).2.Add P tx).2 = (m.Add P tx).2 ∧
    ((m.Add P tx).2.Add P tx).2.Len = (m.Add P tx).2.Len ∧
    (m.Has P tx = false → ((m.Add P tx).2.Add P tx).2.Len = m.Len + 1) ∧
    (m.Has P tx = true → ((m.Add P tx).2.Add P tx).2.Len = m.Len) ∧
    (m.txx.keys.Nodup → (m.Add P tx).2.txx.keys.Nodup) := by
  have hhas : (m.Add P tx).2.Has P tx = true := by
    by_cases h : m.Has P tx = true
    · simp [Mempool.Add, h]
    · rw [Mempool.Add, if_neg h]
      simp [Mempool.Has, GoMap.get_set_self]
  have hsecond : (m.Add P tx).2.Add P tx = (false, (m.Add P tx).2) := by
    rw [Mempool.Add, if_pos hhas]
  refine ⟨?_, hhas, by rw [hsecond], by rw [hsecond], by rw [hsecond], ?_, ?_, ?_⟩
  · by_cases h : m.Has P tx = true <;> simp [Mempool.Add, h]
  · intro h
    have hget : m.txx.get (hexEncode (HashTransaction P tx)) = none := by
      simpa [Mempool.Has] using h
    rw [hsecond]
    simp [Mempool.Add, h, Mempool.Len, GoMap.set, GoMap.erase_of_get_none _ _ hget]
  · intro h
    rw [hsecond]
    simp [Mempool.Add, h]
  · intro hnd
    by_cases h : m.Has P tx = true
    · simpa [Mempool.Add, h] using hnd
    · simpa [Mempool.Add, h] using GoMap.keys_set_nodup m.txx _ tx hnd

theorem Mempool.Clear.loop_nodup : ∀ (pending : GoMap Transaction) (txs : List Transaction),
    pending.keys.Nodup →
    Mempool.Clear.loop pending txs txs.length pending = ([], txs ++ pending.map (fun p => p.2))
  | [], txs, _ => by simp [Mempool.Clear.loop]
  | (k, v) :: rest, txs, h => by
    simp only [GoMap.keys, List.map_cons, List.nodup_cons] at h
    have hnone : GoMap.get rest k = none := GoMap.get_none_of_not_mem_keys rest k h.1
    have herase : GoMap.erase ((k, v) :: rest) k = rest := by
      simp [GoMap.erase, GoMap.erase_of_get_none rest k hnone]
    have hset : (txs ++ [v]).set txs.length v = txs ++ [v] := by simp
    unfold Mempool.Clear.loop
    simp only [GoMap.get, if_true, herase, hset]
    have := Mempool.Clear.loop_nodup rest (txs ++ [v]) h.2
    simpa using this

/-- C13. `Clear` on a mempool that holds `n` transactions returns a list of
length `n` with each held transaction exactly once (a permutation of the held
values), and afterwards `Len()` is 0 and `Has` is false for every transaction. -/
theorem mempool_clear_returns_all (P : Primitives) (m : Mempool) (hm : m.txx.keys.Nodup) :
    (m.Clear.1.length : Int) = m.Len ∧
    m.Clear.1.Perm (m.txx.map (fun p => p.2)) ∧
    m.Clear.2.Len = 0 ∧
    ∀ tx : Transaction, m.Clear.2.Has P tx = false := by
  have h := Mempool.Clear.loop_nodup m.txx [] hm
  simp only [List.length_nil, List.nil_append] at h
  have h1 : m.Clear.1 = m.txx.map (fun p => p.2) := by simp [Mempool.Clear, h]
  have h2 : m.Clear.2 = { txx := [] } := by simp [Mempool.Clear, h]
  refine ⟨by simp [h1, Mempool.Len], by rw [h1], by simp [h2, Mempool.Len], ?_⟩
  intro tx
  simp [h2, Mempool.Has, GoMap.get]

/-! ## The genesis block -/

theorem godSeed_decodes : (hexDecodeString godSeed).map List.length = some 32 := by decide!

theorem SignBlock.withRoot_fields (P : Primitives) (b b1 : Block)
    (h : SignBlock.withRoot P b = some b1) :
    b1.Transactions = b.Transactions ∧ b1.PublicKey = b.PublicKey ∧
    b1.Signature = b.Signature ∧ b1.Header.Version = b.Header.Version ∧
    b1.Header.Height = b.Header.Height ∧ b1.Header.PrevHash = b.Header.PrevHash ∧
    b1.Header.Timestamp = b.Header.Timestamp ∧
    (0 < b.Transactions.length →
      some b1.Header.RootHash = merkleRootOf P (b.Transactions.map (HashTransaction P))) ∧
    (b.Transactions.length = 0 → b1 = b) := by
  unfold SignBlock.withRoot at h
  split at h
  · rename_i hpos
    split at h
    · simp at h
    · rename_i t ht
      simp only [Option.some.injEq] at h
      subst h
      have hn : NewTree P (b.Transactions.map (HashTransaction P)) = some t := ht
      refine ⟨rfl, rfl, rfl, rfl, rfl, rfl, rfl, ?_, ?_⟩
      · intro _
        simp [merkleRootOf, hn]
      · intro h0
        omega
  · rename_i hpos
    simp only [Option.some.injEq] at h
    subst h
    exact ⟨rfl, rfl, rfl, rfl, rfl, rfl, rfl, fun h => absurd h hpos, fun _ => rfl⟩

theorem SignBlock_some (P : Primitives) (pk : PrivateKey) (b : Block) (sig : Signature)
    (b2 : Block) (h : SignBlock P pk b = some (sig, b2)) :
    ∃ b1, SignBlock.withRoot P b = some b1 ∧ b2.Header = b1.Header ∧
      b2.Transactions = b1.Transactions := by
  unfold SignBlock at h
  split at h
  · simp at h
  · rename_i b1 hw
    dsimp only at h
    split at h
    · simp only [Option.some.injEq, Prod.mk.injEq] at h
      exact ⟨b1, hw, by rw [← h.2], by rw [← h.2]⟩
    · simp at h

/-- `SignBlock` with a key made from a 32-byte seed: the block it leaves behind
and that `VerifyBlock` accepts it. -/
theorem SignBlock_seeded (P : Primitives) (hed : EdCorrect P)
    (hsha : ∀ x, (P.sha256 x).length = 32) (seed : ByteSeq) (hseed : seed.length = 32)
    (b : Block) :
    ∃ b1, SignBlock.withRoot P b = some b1 ∧
      SignBlock P { key := P.edNewKeyFromSeed seed } b =
        some ({ value := P.edSign (P.edNewKeyFromSeed seed) (HashBlock P b1) },
          SignBlock.sealed P (P.edNewKeyFromSeed seed) b1) ∧
      VerifyBlock P (SignBlock.sealed P (P.edNewKeyFromSeed seed) b1) = true := by
  have hkl := hed.key_length seed hseed
  obtain ⟨b1, hw, htx, hroot⟩ := SignBlock.withRoot_spec P hsha b
  have hdrop : ((P.edNewKeyFromSeed seed).drop 32).length = 32 := by simp [hkl]
  have hpub : PrivateKey.Public { key := P.edNewKeyFromSeed seed } =
      some { key := (P.edNewKeyFromSeed seed).drop 32 } := by
    simp [PrivateKey.Public, PrivKeyLen, PubKeyLen, hkl, copyInto_of_length _ _ hdrop]
  have hsign : PrivateKey.Sign P { key := P.edNewKeyFromSeed seed } (HashBlock P b1) =
      some { value := P.edSign (P.edNewKeyFromSeed seed) (HashBlock P b1) } := by
    simp [PrivateKey.Sign, PrivKeyLen, hkl]
  have hsl := hed.sign_length (P.edNewKeyFromSeed seed) (HashBlock P b1) hkl
  refine ⟨b1, hw, ?_, ?_⟩
  · simp [SignBlock, hw, hsign, hpub, PublicKey.Bytes, Signature.Bytes, SignBlock.sealed]
  · unfold VerifyBlock
    rw [if_neg, if_neg]
    · simpa [Signature.Verify, HashBlock, SignBlock.sealed] using
        hed.verify_sign seed (HashBlock P b1) hseed
    · simp [PubKeyLen, SignatureLen, hdrop, hsl, SignBlock.sealed]
    · rintro ⟨hpos, hfalse⟩
      have hpos1 : 0 < b.Transactions.length := by
        simpa [htx, SignBlock.sealed] using hpos
      rw [VerifyRootHash_congr P b1 (SignBlock.sealed P (P.edNewKeyFromSeed seed) b1) rfl rfl,
        hroot hpos1] at hfalse
      simp at hfalse

theorem createGenesisBlock_some (P : Primitives) (g : Block)
    (h : createGenesisBlock P = some g) :
    ∃ addr : ByteSeq, g.Transactions = [genesisTransaction addr] ∧
      g.Header.Version = 1 ∧ g.Header.Height = 0 ∧ g.Header.PrevHash = [] ∧
      g.Header.Timestamp = 0 ∧
      some g.Header.RootHash = merkleRootOf P [HashTransaction P (genesisTransaction addr)] := by
  unfold createGenesisBlock at h
  split at h
  · simp at h
  · split at h
    · simp at h
    · split at h
      · simp at h
      · rename_i addr _
        dsimp only at h
        split at h
        · simp at h
        · rename_i sig b2 hs
          simp only [Option.some.injEq] at h
          subst h
          obtain ⟨b1, hw, hh, ht⟩ := SignBlock_some P _ _ _ _ hs
          have hf := SignBlock.withRoot_fields P _ b1 hw
          refine ⟨addr.Bytes, ?_, ?_, ?_, ?_, ?_, ?_⟩
          · rw [ht, hf.1]
            rfl
          · rw [hh, hf.2.2.2.1]
          · rw [hh, hf.2.2.2.2.1]
          · rw [hh, hf.2.2.2.2.2.1]
          · rw [hh, hf.2.2.2.2.2.2.1]
          · rw [hh]
            exact hf.2.2.2.2.2.2.2.1 (by simp)


theorem createGenesisBlock_seeded (P : Primitives) (hed : EdCorrect P)
    (hsha : ∀ x, (P.sha256 x).length = 32) :
    ∃ (seed : ByteSeq) (g : Block), hexDecodeString godSeed = some seed ∧ seed.length = 32 ∧
      NewPrivateKeyFromSeedStr P godSeed = some { key := P.edNewKeyFromSeed seed } ∧
      PrivateKey.PublicKey { key := P.edNewKeyFromSeed seed } =
        some { key := (P.edNewKeyFromSeed seed).drop 32 } ∧
      PublicKey.Address { key := (P.edNewKeyFromSeed seed).drop 32 } =
        some { value := ((P.edNewKeyFromSeed seed).drop 32).drop 12 } ∧
      (((P.edNewKeyFromSeed seed).drop 32).drop 12).length = 20 ∧
      createGenesisBlock P = some g ∧
      g.Transactions = [genesisTransaction (((P.edNewKeyFromSeed seed).drop 32).drop 12)] ∧
      g.PublicKey = (P.edNewKeyFromSeed seed).drop 32 ∧
      VerifyBlock P g = true := by
  have hdec := godSeed_decodes
  cases hseed : hexDecodeString godSeed with
  | none => simp [hseed] at hdec
  | some seed =>
    have hlen : seed.length = 32 := by simpa [hseed] using hdec
    have hkl := hed.key_length seed hlen
    have hdrop : ((P.edNewKeyFromSeed seed).drop 32).length = 32 := by simp [hkl]
    have hkey : NewPrivateKeyFromSeedStr P godSeed = some { key := P.edNewKeyFromSeed seed } := by
      simp [NewPrivateKeyFromSeedStr, hseed, NewPrivateKeyFromSeed, SeedLen, hlen]
    have hpub : PrivateKey.PublicKey { key := P.edNewKeyFromSeed seed } =
        some { key := (P.edNewKeyFromSeed seed).drop 32 } := by
      simp [PrivateKey.PublicKey, hkl, copyInto_of_length _ _ hdrop]
    have haddr : PublicKey.Address { key := (P.edNewKeyFromSeed seed).drop 32 } =
        some { value := ((P.edNewKeyFromSeed seed).drop 32).drop 12 } := by
      simp [PublicKey.Address, PubKeyLen, AddressLen, hkl]
    obtain ⟨b1, hw, hsign, hver⟩ := SignBlock_seeded P hed hsha seed hlen
      { Header := { Version := 1, Height := 0, PrevHash := [], RootHash := [], Timestamp := 0 },
        Transactions := [genesisTransaction (((P.edNewKeyFromSeed seed).drop 32).drop 12)],
        PublicKey := [], Signature := [] }
    have hf := SignBlock.withRoot_fields P _ b1 hw
    refine ⟨seed, SignBlock.sealed P (P.edNewKeyFromSeed seed) b1, rfl, hlen, hkey, hpub, haddr,
      by simp [hkl], ?_, ?_, rfl, hver⟩
    · have hsign1 := hsign
      simp only [genesisTransaction] at hsign1
      simp only [createGenesisBlock, hkey, hpub, haddr, Address.Bytes, List.nil_append, hsign1]
    · exact hf.1

/-- C14. The chain `NewChain` builds has height 0, and `GetBlockByHeight(0)`
returns the genesis block without error: it has exactly one transaction, with
no inputs and one output of amount 1000 to the 20-byte address of the key made
from the god seed, it carries that key's public key, and `VerifyBlock` accepts
it. -/
theorem newChain_installs_genesis (P : Primitives) (hed : EdCorrect P)
    (hsha : ∀ x, (P.sha256 x).length = 32) (bs : MemoryBlockStore) (ts : MemoryTXStore) :
    ∃ (c : Chain) (g : Block) (key : PrivateKey) (pub : PublicKey) (addr : Address),
      NewChain P bs ts = some c ∧ c.Height = 0 ∧
      c.GetBlockByHeight P 0 = some (.ok g) ∧
      NewPrivateKeyFromSeedStr P godSeed = some key ∧ key.PublicKey = some pub ∧
      pub.Address = some addr ∧ addr.Bytes.length = 20 ∧
      g.Transactions =
        [{ Version := 1, Inputs := [], Outputs := [{ Amount := 1000, Address := addr.Bytes }] }] ∧
      g.PublicKey = pub.Bytes ∧ VerifyBlock P g = true := by
  obtain ⟨seed, g, _, _, hkey, hpub, haddr, halen, hg, htx, hgpub, hver⟩ :=
    createGenesisBlock_seeded P hed hsha
  have hc : NewChain P bs ts = some (Chain.addBlock P
      { txStore := ts, utxStore := NewMemoryUTXOStore, blockStore := bs,
        headers := NewHeaderList } g) := by
    simp [NewChain, hg]
  have hh := NewChain_Height P bs ts _ hc
  have hget := TipStored.GetBlockByHeight P _ g (Chain.addBlock_TipStored P
    { txStore := ts, utxStore := NewMemoryUTXOStore, blockStore := bs,
      headers := NewHeaderList } g)
  rw [hh] at hget
  exact ⟨_, g, _, _, _, hc, hh, hget, hkey, hpub, haddr, halen, htx, hgpub, hver⟩

/-- C15 (amended). The header of the genesis block installed by `NewChain` has
`Version` 1 and an empty `PrevHash`; its `RootHash` is the Merkle root of the
hash of the genesis transaction, 32 bytes long. -/
theorem genesis_header_fields (P : Primitives) (hsha : ∀ x, (P.sha256 x).length = 32)
    (bs : MemoryBlockStore) (ts : MemoryTXStore) (c : Chain) (h : NewChain P bs ts = some c) :
    ∃ (header : Header) (addr : ByteSeq), c.headers.headers = [header] ∧
      header.Version = 1 ∧ header.PrevHash = [] ∧
      some header.RootHash = merkleRootOf P [HashTransaction P (genesisTransaction addr)] ∧
      header.RootHash.length = 32 := by
  unfold NewChain at h
  split at h
  · simp at h
  · rename_i g hg
    simp only [Option.some.injEq] at h
    subst h
    obtain ⟨addr, _, hv, _, hp, _, hr⟩ := createGenesisBlock_some P g hg
    refine ⟨g.Header, addr, by simp [Chain.addBlock, HeaderList.Add, NewHeaderList], hv, hp, hr, ?_⟩
    obtain ⟨x, hx, _⟩ := NewTree_isSome P [HashTransaction P (genesisTransaction addr)] (by simp)
    rw [merkleRootOf, hx] at hr
    simp only [Option.map_some', MerkleTree.MerkleRoot, Option.some.injEq] at hr
    rw [hr]
    exact hsha x

namespace Model

theorem newChain_installs_genesis_witness :
    ∃ (c : Chain) (g : Block) (key : PrivateKey) (pub : PublicKey) (addr : Address),
      NewChain primitives NewMemoryBlockStore NewMemoryTXStore = some c ∧ c.Height = 0 ∧
      c.GetBlockByHeight primitives 0 = some (.ok g) ∧
      NewPrivateKeyFromSeedStr primitives godSeed = some key ∧ key.PublicKey = some pub ∧
      pub.Address = some addr ∧ addr.Bytes.length = 20 ∧
      g.Transactions =
        [{ Version := 1, Inputs := [], Outputs := [{ Amount := 1000, Address := addr.Bytes }] }] ∧
      g.PublicKey = pub.Bytes ∧ VerifyBlock primitives g = true :=
  newChain_installs_genesis primitives edCorrect sha256_length NewMemoryBlockStore
    NewMemoryTXStore

/-- C15 fails as stated: the header of the genesis block that `NewChain`
installs has a `RootHash` that is not empty. -/
theorem genesis_rootHash_not_empty :
    NewChain primitives NewMemoryBlockStore NewMemoryTXStore = some chain0 ∧
    chain0.headers.headers = [genesis.Header] ∧
    ¬ (genesis.Header.Version = 1 ∧ genesis.Header.PrevHash = [] ∧
        genesis.Header.RootHash = []) := by
  decide!

theorem genesis_header_fields_witness :
    NewChain primitives NewMemoryBlockStore NewMemoryTXStore = some chain0 ∧
    ∃ (header : Header) (addr : ByteSeq), chain0.headers.headers = [header] ∧
      header.Version = 1 ∧ header.PrevHash = [] ∧
      some header.RootHash =
        merkleRootOf primitives [HashTransaction primitives (genesisTransaction addr)] ∧
      header.RootHash.length = 32 :=
  ⟨by decide!,
    genesis_header_fields primitives sha256_length NewMemoryBlockStore NewMemoryTXStore chain0
      (by decide!)⟩

end Model

/-! ## Peers -/

theorem Node.canConnectWith.loop_false (addr : String) : ∀ addrs : List String,
    Node.canConnectWith.loop addr addrs = false ↔ addr ∈ addrs
  | [] => by simp [Node.canConnectWith.loop]
  | a :: rest => by
    by_cases h : addr = a
    · simp [Node.canConnectWith.loop, h]
    · simp [Node.canConnectWith.loop, h, Node.canConnectWith.loop_false addr rest]

/-- C16. `canConnectWith(a)` returns false exactly when `a` is the node's own
listen address or the `ListenAddr` of a Version in the peer table, and true
otherwise.  It only reads the node: the peer table after the call is the one
before it. -/
theorem canConnectWith_false_iff (n : Node) (a : String) :
    (n.canConnectWith a = false ↔ (a = n.ListenAddr ∨ ∃ p ∈ n.peers, p.2.ListenAddr = a)) ∧
    (n.canConnectWith a = true ↔ ¬ (a = n.ListenAddr ∨ ∃ p ∈ n.peers, p.2.ListenAddr = a)) := by
  have h1 : n.canConnectWith a = false ↔
      (a = n.ListenAddr ∨ ∃ p ∈ n.peers, p.2.ListenAddr = a) := by
    unfold Node.canConnectWith
    by_cases h : n.ListenAddr = a
    · simp [h]
    · have h2 : ¬ a = n.ListenAddr := fun e => h e.symm
      rw [if_neg h, Node.canConnectWith.loop_false]
      simp [Node.getPeerList, h2]
  refine ⟨h1, ?_⟩
  rw [← h1]
  simp

/-! ## Heights above the tip -/

/-- C18. For a height `h` above `Height()`, `GetBlockByHeight(h)` returns the
"height is greater than the chain height" error and no block; in particular
for `Height() + 1`.  The function only reads the chain. -/
theorem getBlockByHeight_above_height (P : Primitives) (c : Chain) (h : Int)
    (hh : c.Height < h) :
    c.GetBlockByHeight P h = some (.error (.heightTooGreat h c.Height)) ∧
    c.GetBlockByHeight P (c.Height + 1) =
      some (.error (.heightTooGreat (c.Height + 1) c.Height)) := by
  constructor
  · unfold Chain.GetBlockByHeight
    rw [if_pos hh]
  · unfold Chain.GetBlockByHeight
    rw [if_pos (by omega)]

/-! ## Addresses -/

/-- C19. The address of a 32-byte public key is 20 bytes long and consists of
bytes 12 to 31 of the key, its last 20 bytes; and for every private key
`Public()` and `PublicKey()` give the same public key, hence the same address. -/
theorem address_is_last_20_bytes (p : PublicKey) (hp : p.key.length = 32) :
    (∃ a : Address, p.Address = some a ∧ a.Bytes.length = 20 ∧ a.Bytes = p.key.drop 12 ∧
      ∀ i : Nat, i < 20 → a.Bytes.get? i = p.key.get? (12 + i)) ∧
    ∀ k : PrivateKey, k.Public = k.PublicKey ∧
      k.Public.bind PublicKey.Address = k.PublicKey.bind PublicKey.Address := by
  constructor
  · refine ⟨{ value := p.key.drop 12 }, ?_, ?_, rfl, ?_⟩
    · simp [PublicKey.Address, PubKeyLen, AddressLen, hp]
    · simp [Address.Bytes, hp]
    · intro i _
      simp [Address.Bytes, List.getElem?_drop]
  · intro k
    have h : k.Public = k.PublicKey := by
      simp [PrivateKey.Public, PrivateKey.PublicKey, PrivKeyLen, PubKeyLen]
    exact ⟨h, by rw [h]⟩

namespace Model

theorem getBlockByHeight_above_height_witness :
    chain0.Height < 1 ∧
    chain0.GetBlockByHeight primitives 1 = some (.error (.heightTooGreat 1 chain0.Height)) :=
  ⟨by decide!, (getBlockByHeight_above_height primitives chain0 1 (by decide!)).1⟩

theorem address_is_last_20_bytes_witness :
    godPub.length = 32 ∧ godPub.drop 12 ≠ godPub.take 20 ∧
    ∃ a : Address, PublicKey.Address { key := godPub } = some a ∧ a.Bytes.length = 20 ∧
      a.Bytes = godPub.drop 12 ∧
      ∀ i : Nat, i < 20 → a.Bytes.get? i = godPub.get? (12 + i) :=
  ⟨by decide!, by decide!, (address_is_last_20_bytes { key := godPub } (by decide!)).1⟩

/-- C17. On a node that listens on `:3000` and has no peers, two `Handshake`
calls from a node that listens on `:4000` (each dial yielding a fresh client
handle) leave `:4000` twice in the peer list, although `canConnectWith` says
false for `:4000` after the first call; and a `Handshake` whose Version carries
`:3000` puts the node's own address into its peer list. -/
theorem handshake_adds_duplicate_peer :
    node3000.getPeerList = [] ∧
    ((node3000.Handshake (versionOf ":4000") (some 1)).1.canConnectWith ":4000") = false ∧
    (((node3000.Handshake (versionOf ":4000") (some 1)).1.Handshake (versionOf ":4000")
      (some 2)).1.getPeerList) = [":4000", ":4000"] ∧
    (node3000.Handshake (versionOf ":3000") (some 1)).1.getPeerList = [":3000"] ∧
    node3000.ListenAddr = ":3000" := by
  decide!

/-- C20. `ValidateTransaction` on the signed transaction of `block1` returns no
error but leaves the transaction with its input signature cleared; the second
call, on the transaction as the first call left it, panics on the signature
length.  `ValidateBlock` leaves `block1` changed in the same way. -/
theorem validation_clears_signatures :
    chain0.ValidateTransaction primitives spendTx = some (none, spendTx.clearSignatures) ∧
    spendTx.clearSignatures ≠ spendTx ∧
    spendTx.Inputs.map (fun i => i.Signature.length) = [64] ∧
    spendTx.clearSignatures.Inputs.map (fun i => i.Signature.length) = [0] ∧
    chain0.ValidateTransaction primitives spendTx.clearSignatures = none ∧
    chain0.ValidateBlock primitives block1 = some (none, cleared block1) ∧
    cleared block1 ≠ block1 := by
  decide!

/-- C12 on the empty mempool and the signed transaction of `block1`. -/
theorem mempool_add_once_witness :
    NewMempool.Has primitives spendTx = false ∧ (NewMempool.Add primitives spendTx).1 = true ∧
    ((NewMempool.Add primitives spendTx).2.Add primitives spendTx).2.Len = NewMempool.Len + 1 :=
  ⟨by decide!,
    (mempool_add_once primitives NewMempool spendTx).1.mpr (by decide!),
    (mempool_add_once primitives NewMempool spendTx).2.2.2.2.2.1 (by decide!)⟩

/-- C13 on a mempool that holds two transactions. -/
theorem mempool_clear_returns_all_witness :
    mempool2.txx.keys.Nodup ∧ mempool2.Len = 2 ∧
    (mempool2.Clear.1.length : Int) = mempool2.Len ∧
    mempool2.Clear.1.Perm (mempool2.txx.map (fun p => p.2)) ∧
    mempool2.Clear.2.Len = 0 ∧
    ∀ tx : Transaction, mempool2.Clear.2.Has primitives tx = false :=
  ⟨by decide!, by decide!, mempool_clear_returns_all primitives mempool2 (by decide!)⟩

end Model

/-! ## The header list is a hash chain -/

theorem VerifyBlock_true (P : Primitives) (b : Block) (h : VerifyBlock P b = true) :
    0 < b.Transactions.length → VerifyRootHash P b = true := by
  intro hpos
  unfold VerifyBlock at h
  split at h
  · simp at h
  · rename_i hn
    by_contra hne
    exact hn ⟨hpos, by simpa using hne⟩

theorem Chain.ValidateBlock_ok_checks (P : Primitives) (c : Chain) (b b1 : Block)
    (h : c.ValidateBlock P b = some (none, b1)) :
    VerifyBlock P b = true ∧
      ∃ cur, c.GetBlockByHeight P c.Height = some (.ok cur) ∧
        b.Header.PrevHash = HashBlock P cur := by
  unfold Chain.ValidateBlock at h
  split at h
  · simp at h
  · rename_i hv
    split at h
    · simp at h
    · simp at h
    · rename_i cur hcur
      dsimp only at h
      split at h
      · simp at h
      · rename_i hp
        exact ⟨by simpa using hv, cur, hcur, by simpa using hp⟩

theorem Chain.AddBlock_ok_header (P : Primitives) (c : Chain) (b : Block) (c1 : Chain)
    (b1 : Block) (h : c.AddBlock P b = some (none, c1, b1)) :
    b1.Header = b.Header ∧ b1.Transactions = b.Transactions.map Transaction.clearSignatures ∧
      c1 = c.addBlock P b1 := by
  obtain ⟨hv, hc⟩ := Chain.AddBlock_ok P c b c1 b1 h
  have hb := Chain.ValidateBlock_ok P c b b1 hv
  exact ⟨by rw [hb], by rw [hb], hc⟩

/-- What holds of the headers in every reachable state: the first one is the
genesis header, the list is a hash chain, and its last header is the header of
the stored tip block. -/
theorem Reachable.headers_linked (P : Primitives) (c : Chain) (hc : Reachable P c) :
    (∃ (g : Block) (rest : List Header), createGenesisBlock P = some g ∧
      c.headers.headers = g.Header :: rest) ∧
    HeadersLinked P c.headers.headers := by
  induction hc with
  | init c h =>
    unfold NewChain at h
    split at h
    · simp at h
    · rename_i g hg
      simp only [Option.some.injEq] at h
      subst h
      have hh0 : ∀ c0 : Chain, c0.headers = NewHeaderList →
          (c0.addBlock P g).headers.headers = [g.Header] := by
        intro c0 h0
        simp [Chain.addBlock, HeaderList.Add, h0, NewHeaderList]
      refine ⟨⟨g, [], hg, hh0 _ rfl⟩, ?_⟩
      rw [hh0 _ rfl]
      exact List.chain'_singleton _
  | step c b err c1 b1 hreach h ih =>
    cases err with
    | some e =>
      rw [Chain.AddBlock_error P c b e c1 b1 h]
      exact ih
    | none =>
      obtain ⟨hhdr, _, hc1⟩ := Chain.AddBlock_ok_header P c b c1 b1 h
      obtain ⟨hv, _⟩ := Chain.AddBlock_ok P c b c1 b1 h
      obtain ⟨_, cur, hcur, hprev⟩ := Chain.ValidateBlock_ok_checks P c b b1 hv
      obtain ⟨tip, htip⟩ := Reachable.tipStored P c hreach
      have hget := TipStored.GetBlockByHeight P c tip htip
      rw [hcur] at hget
      simp only [Option.some.injEq, Except.ok.injEq] at hget
      subst hget
      obtain ⟨init, hinit, _⟩ := htip
      obtain ⟨⟨g, rest, hg, hrest⟩, hlinked⟩ := ih
      have hheaders : c1.headers.headers = c.headers.headers ++ [b.Header] := by
        rw [hc1, ← hhdr]
        simp [Chain.addBlock, HeaderList.Add]
      refine ⟨⟨g, rest ++ [b.Header], hg, by rw [hheaders, hrest]; rfl⟩, ?_⟩
      rw [hheaders]
      unfold HeadersLinked at hlinked ⊢
      apply List.Chain'.append hlinked (List.chain'_singleton _)
      intro x hx y hy
      rw [hinit] at hx
      simp only [List.getLast?_append, List.getLast?_singleton, Option.or, Option.mem_def,
        Option.some.injEq] at hx
      simp only [List.head?_cons, Option.mem_def, Option.some.injEq] at hy
      subst hx hy
      exact hprev

/-- C23. In every reachable chain state the header at index 0 is the header of
the genesis block, and for every `h` with `1 ≤ h ≤ Height()` the header at
index `h` has as `PrevHash` the `HashHeader` of the header at index `h - 1`. -/
theorem headers_form_linear_chain (P : Primitives) (c : Chain) (hc : Reachable P c) :
    (∃ g : Block, createGenesisBlock P = some g ∧ c.headers.Get 0 = some g.Header) ∧
    ∀ h : Int, 1 ≤ h → h ≤ c.Height →
      ∃ prev hdr : Header, c.headers.Get (h - 1) = some prev ∧ c.headers.Get h = some hdr ∧
        hdr.PrevHash = HashHeader P prev := by
  obtain ⟨⟨g, rest, hg, hrest⟩, hlinked⟩ := Reachable.headers_linked P c hc
  have hget : ∀ i : Nat, (i : Int) ≤ c.Height →
      ∃ hdr, c.headers.headers.get? i = some hdr ∧ c.headers.Get i = some hdr := by
    intro i hi
    have hlt : i < c.headers.headers.length := by
      simp only [Chain.Height, HeaderList.Height, HeaderList.Len] at hi
      omega
    refine ⟨c.headers.headers.get ⟨i, hlt⟩, List.get?_eq_get hlt, ?_⟩
    unfold HeaderList.Get
    rw [if_neg (by simpa [Chain.Height] using hi), if_neg (by omega)]
    simp
  constructor
  · refine ⟨g, hg, ?_⟩
    obtain ⟨hdr, h1, h2⟩ := hget 0 (by
      simp only [Chain.Height, HeaderList.Height, HeaderList.Len, hrest, List.length_cons]
      omega)
    rw [hrest] at h1
    simp only [List.get?_cons_zero, Option.some.injEq] at h1
    rw [h1]
    exact h2
  · intro h h1 hH
    obtain ⟨n, rfl⟩ : ∃ n : Nat, h = (n : Int) + 1 := ⟨(h - 1).toNat, by omega⟩
    obtain ⟨prev, hp1, hp2⟩ := hget n (by omega)
    obtain ⟨hdr, hh1, hh2⟩ := hget (n + 1) (by exact_mod_cast hH)
    refine ⟨prev, hdr, by simpa using hp2, by exact_mod_cast hh2, ?_⟩
    unfold HeadersLinked at hlinked
    have hlen : n + 1 < c.headers.headers.length := by
      simp only [Chain.Height, HeaderList.Height, HeaderList.Len] at hH
      omega
    have := (List.chain'_iff_get.mp hlinked) n (by omega)
    have e1 : c.headers.headers.get ⟨n, by omega⟩ = prev := by
      have := List.get?_eq_get (l := c.headers.headers) (n := n) (by omega)
      rw [hp1] at this
      exact (Option.some.inj this).symm
    have e2 : c.headers.headers.get ⟨n + 1, hlen⟩ = hdr := by
      have := List.get?_eq_get (l := c.headers.headers) (n := n + 1) hlen
      rw [hh1] at this
      exact (Option.some.inj this).symm
    rw [← e1, ← e2]
    exact this

/-! ## Stored blocks commit to their transactions -/

theorem GoMap.get_set_cases {V : Type} (m : GoMap V) (k k1 : String) (v x : V)
    (h : (m.set k v).get k1 = some x) : x = v ∨ m.get k1 = some x := by
  by_cases hk : k = k1
  · subst hk
    rw [GoMap.get_set_self] at h
    exact Or.inl (Option.some.inj h).symm
  · rw [GoMap.get_set_ne m k k1 v hk] at h
    exact Or.inr h

theorem ReachableWith.reachable (P : Primitives) (hist : List Block) (c : Chain)
    (hc : ReachableWith P hist c) : Reachable P c := by
  induction hc with
  | init c g _ h => exact Reachable.init c h
  | accept hist c b c1 b1 _ h ih => exact Reachable.step c b none c1 b1 ih h
  | reject hist c b e c1 b1 _ h ih => exact Reachable.step c b (some e) c1 b1 ih h

theorem Reachable.exists_history (P : Primitives) (c : Chain) (hc : Reachable P c) :
    ∃ hist, ReachableWith P hist c := by
  induction hc with
  | init c h =>
    cases hg : createGenesisBlock P with
    | none => simp [NewChain, hg] at h
    | some g => exact ⟨[g], ReachableWith.init c g hg h⟩
  | step c b err c1 b1 _ h ih =>
    obtain ⟨hist, hh⟩ := ih
    cases err with
    | none => exact ⟨hist ++ [b], ReachableWith.accept hist c b c1 b1 hh h⟩
    | some e => exact ⟨hist, ReachableWith.reject hist c b e c1 b1 hh h⟩

theorem createGenesisBlock_rootHash (P : Primitives) (g : Block)
    (h : createGenesisBlock P = some g) :
    some g.Header.RootHash = merkleRootOf P (g.Transactions.map (HashTransaction P)) := by
  obtain ⟨addr, htx, _, _, _, _, hroot⟩ := createGenesisBlock_some P g h
  rw [htx]
  simpa using hroot

theorem Chain.AddBlock_ok_rootHash (P : Primitives) (c : Chain) (b : Block) (c1 : Chain)
    (b1 : Block) (h : c.AddBlock P b = some (none, c1, b1)) :
    0 < b.Transactions.length →
      some b.Header.RootHash = merkleRootOf P (b.Transactions.map (HashTransaction P)) := by
  intro hpos
  obtain ⟨hv, _⟩ := Chain.AddBlock_ok P c b c1 b1 h
  obtain ⟨hver, _⟩ := Chain.ValidateBlock_ok_checks P c b b1 hv
  exact (VerifyRootHash_true P b (VerifyBlock_true P b hver hpos)).2

theorem Chain.addBlock_blockStore_get (P : Primitives) (c : Chain) (b : Block)
    (hash : String) (blk : Block) (h : (c.addBlock P b).blockStore.Get hash = some blk) :
    blk = b ∨ c.blockStore.Get hash = some blk := by
  simp only [Chain.addBlock, MemoryBlockStore.Put, MemoryBlockStore.Get] at h
  exact GoMap.get_set_cases _ _ _ _ _ h

/-- In a reachable state every block of the history with transactions has the
Merkle root of their hashes as `RootHash`, and every stored block has the
header and the number of transactions of a block of the history. -/
theorem ReachableWith.blockStore (P : Primitives) (hist : List Block) (c : Chain)
    (hc : ReachableWith P hist c) :
    (∀ b ∈ hist, 0 < b.Transactions.length →
      some b.Header.RootHash = merkleRootOf P (b.Transactions.map (HashTransaction P))) ∧
    ∀ (hash : String) (blk : Block), c.blockStore.Get hash = some blk →
      ∃ b ∈ hist, blk.Header = b.Header ∧ blk.Transactions.length = b.Transactions.length := by
  induction hc with
  | init c g hg h =>
    constructor
    · intro b hb _
      simp only [List.mem_singleton] at hb
      subst hb
      exact createGenesisBlock_rootHash P b hg
    · intro hash blk hget
      simp only [NewChain, hg, Option.some.injEq] at h
      subst h
      rcases Chain.addBlock_blockStore_get P _ g hash blk hget with e | e
      · exact ⟨g, by simp, by rw [e], by rw [e]⟩
      · simp [MemoryBlockStore.Get, NewMemoryBlockStore, GoMap.get] at e
  | accept hist c b c1 b1 _ h ih =>
    obtain ⟨hhdr, htx, hc1⟩ := Chain.AddBlock_ok_header P c b c1 b1 h
    constructor
    · intro b2 hb2 hpos
      rcases List.mem_append.mp hb2 with hm | hm
      · exact ih.1 b2 hm hpos
      · simp only [List.mem_singleton] at hm
        subst hm
        exact Chain.AddBlock_ok_rootHash P c b2 c1 b1 h hpos
    · intro hash blk hget
      rw [hc1] at hget
      rcases Chain.addBlock_blockStore_get P c b1 hash blk hget with e | e
      · exact ⟨b, by simp, by rw [e, hhdr], by rw [e, htx]; simp⟩
      · obtain ⟨b2, hb2, h1, h2⟩ := ih.2 hash blk e
        exact ⟨b2, List.mem_append_left _ hb2, h1, h2⟩
  | reject hist c b e c1 b1 _ h ih =>
    rw [Chain.AddBlock_error P c b e c1 b1 h]
    exact ih

/-- C21 (amended). Every block stored in a reachable chain has the header of a
block of the chain's history, that is of the genesis block or of a block that
`AddBlock` accepted, and as many transactions; if it has transactions, its
`RootHash` is the Merkle root of the hashes that block's transactions had, in
block order, when the block was passed to `AddBlock` (the genesis block: when
it was signed).  Nothing is required of the `RootHash` of a block without
transactions. -/
theorem stored_block_rootHash_commits (P : Primitives) (hist : List Block) (c : Chain)
    (hc : ReachableWith P hist c) :
    ∀ (hash : String) (blk : Block), c.blockStore.Get hash = some blk →
      ∃ b ∈ hist, blk.Header = b.Header ∧
        blk.Transactions.length = b.Transactions.length ∧
        (0 < blk.Transactions.length →
          some blk.Header.RootHash =
            merkleRootOf P (b.Transactions.map (HashTransaction P))) := by
  obtain ⟨hroot, hstored⟩ := ReachableWith.blockStore P hist c hc
  intro hash blk hget
  obtain ⟨b, hb, hh, hl⟩ := hstored hash blk hget
  refine ⟨b, hb, hh, hl, ?_⟩
  intro hpos
  rw [hh]
  exact hroot b hb (by omega)

/-! ## Every stored UTXO was made from an output -/

theorem Chain.addBlock.putOutputs_fromOutput (P : Primitives) (tx : Transaction) :
    ∀ (outs : List TxOutput) (s : MemoryUTXOStore) (it : Nat),
      tx.Outputs.drop it = outs →
      (∀ k u, s.Get k = some u → UTXOFromOutput P u) →
      ∀ k u, (Chain.addBlock.putOutputs P tx s it outs).Get k = some u → UTXOFromOutput P u := by
  intro outs
  induction outs with
  | nil =>
    intro s it _ hs k u h
    exact hs k u h
  | cons o rest ih =>
    intro s it hdrop hs k u h
    unfold Chain.addBlock.putOutputs at h
    dsimp only at h
    refine ih _ (it + 1) ?_ ?_ k u h
    · rw [← List.drop_drop, hdrop]
      rfl
    · intro k1 u1 h1
      simp only [MemoryUTXOStore.Put, MemoryUTXOStore.Get] at h1
      rcases GoMap.get_set_cases _ _ _ _ _ h1 with e | e
      · rw [e]
        refine ⟨tx, o, rfl, ?_, rfl, rfl⟩
        have : (tx.Outputs.drop it).get? 0 = some o := by rw [hdrop]; rfl
        simpa [List.getElem?_drop] using this
      · exact hs k1 u1 e

theorem Chain.addBlock.putTransactions_fromOutput (P : Primitives) :
    ∀ (txs : List Transaction) (ts : MemoryTXStore) (us : MemoryUTXOStore),
      (∀ k u, us.Get k = some u → UTXOFromOutput P u) →
      ∀ k u, (Chain.addBlock.putTransactions P ts us txs).2.Get k = some u →
        UTXOFromOutput P u := by
  intro txs
  induction txs with
  | nil =>
    intro ts us hs k u h
    exact hs k u h
  | cons tx rest ih =>
    intro ts us hs k u h
    unfold Chain.addBlock.putTransactions at h
    exact ih _ _ (Chain.addBlock.putOutputs_fromOutput P tx tx.Outputs us 0 rfl hs) k u h

theorem Reachable.utxo_fromOutput (P : Primitives) (c : Chain) (hc : Reachable P c) :
    ∀ k u, c.utxStore.Get k = some u → UTXOFromOutput P u := by
  induction hc with
  | init c h =>
    unfold NewChain at h
    split at h
    · simp at h
    · rename_i g hg
      simp only [Option.some.injEq] at h
      subst h
      apply Chain.addBlock.putTransactions_fromOutput P g.Transactions
      intro k u hget
      simp [MemoryUTXOStore.Get, NewMemoryUTXOStore, GoMap.get] at hget
  | step c b err c1 b1 _ h ih =>
    cases err with
    | some e =>
      rw [Chain.AddBlock_error P c b e c1 b1 h]
      exact ih
    | none =>
      rw [(Chain.AddBlock_ok P c b c1 b1 h).2]
      exact Chain.addBlock.putTransactions_fromOutput P b1.Transactions _ _ ih

theorem Chain.ValidateTransaction.sumInputs_not_spent (c : Chain)
    (hc : ∀ k u, c.utxStore.Get k = some u → u.Spent = false) :
    ∀ (inputs : List TxInput) (i : Nat) (acc : Int) (j : Nat) (prevHash : String),
      Chain.ValidateTransaction.sumInputs c i acc inputs ≠ .error (.alreadySpent j prevHash) := by
  intro inputs
  induction inputs with
  | nil =>
    intro i acc j prevHash h
    simp [Chain.ValidateTransaction.sumInputs] at h
  | cons input rest ih =>
    intro i acc j prevHash h
    unfold Chain.ValidateTransaction.sumInputs at h
    dsimp only at h
    split at h
    · simp at h
    · rename_i u hu
      rw [if_neg (by simp [hc _ u hu])] at h
      exact ih _ _ _ _ h

theorem Chain.ValidateTransaction.sumInputs_value (c : Chain) :
    ∀ (inputs : List TxInput) (i : Nat) (acc s : Int),
      Chain.ValidateTransaction.sumInputs c i acc inputs = .ok s →
      s = int64SumFrom acc (c.inputAmounts i inputs) := by
  intro inputs
  induction inputs with
  | nil =>
    intro i acc s h
    simp only [Chain.ValidateTransaction.sumInputs, Except.ok.injEq] at h
    simp [Chain.inputAmounts, int64SumFrom, h]
  | cons input rest ih =>
    intro i acc s h
    unfold Chain.ValidateTransaction.sumInputs at h
    dsimp only at h
    split at h
    · simp at h
    · rename_i u hu
      split at h
      · simp at h
      · have := ih _ _ _ h
        simpa [Chain.inputAmounts, Chain.inputUTXO, hu, int64SumFrom] using this

/-- C24. In every reachable chain state every UTXO in the UTXO store has
`Spent = false`, and `ValidateTransaction` never returns the "already spent"
error. -/
theorem stored_utxos_are_never_spent (P : Primitives) (c : Chain) (hc : Reachable P c) :
    (∀ (key : String) (u : UTXO), c.utxStore.Get key = some u → u.Spent = false) ∧
    ∀ (tx tx1 : Transaction) (i : Nat) (prevHash : String),
      c.ValidateTransaction P tx ≠ some (some (.alreadySpent i prevHash), tx1) := by
  have hs : ∀ (key : String) (u : UTXO), c.utxStore.Get key = some u → u.Spent = false := by
    intro key u h
    obtain ⟨_, _, _, _, _, hsp⟩ := Reachable.utxo_fromOutput P c hc key u h
    exact hsp
  refine ⟨hs, ?_⟩
  intro tx tx1 i prevHash h
  unfold Chain.ValidateTransaction at h
  split at h
  · simp at h
  · simp at h
  · rename_i tx2 _
    split at h
    · rename_i e he
      simp only [Option.some.injEq, Prod.mk.injEq] at h
      rw [h.1] at he
      exact Chain.ValidateTransaction.sumInputs_not_spent c hs _ _ _ _ _ he
    · dsimp only at h
      split at h
      · simp at h
      · simp at h

/-- C25 (amended). A transaction that `ValidateTransaction` accepts has an
`int64` sum of output amounts that does not exceed the `int64` sum of the
amounts of the UTXOs its inputs resolve to; the sign of an output amount is not
checked.  In every reachable chain state every UTXO in the UTXO store carries
the amount of the transaction output it was made from (output `OutIndex` of
the transaction whose hash is `Hash`), whatever its sign. -/
theorem accepted_outputs_are_covered (P : Primitives) (c : Chain) (hc : Reachable P c) :
    (∀ tx tx1 : Transaction, c.ValidateTransaction P tx = some (none, tx1) →
      int64Sum (tx.Outputs.map (fun o => o.Amount)) ≤ int64Sum (c.inputAmounts 0 tx.Inputs)) ∧
    ∀ (key : String) (u : UTXO), c.utxStore.Get key = some u →
      ∃ (tx : Transaction) (o : TxOutput), u.Hash = hexEncode (HashTransaction P tx) ∧
        tx.Outputs.get? u.OutIndex = some o ∧ u.Amount = o.Amount := by
  constructor
  · intro tx tx1 h
    obtain ⟨hsig, _⟩ := Chain.ValidateTransaction_ok P c tx tx1 h
    rw [Chain.ValidateTransaction_of_sumInputs P c tx tx1 hsig] at h
    split at h
    · simp at h
    · rename_i s hsum
      split at h
      · simp at h
      · rename_i hlt
        rw [Chain.ValidateTransaction.sumInputs_value c _ _ _ _ hsum] at hlt
        simpa [int64Sum] using hlt
  · intro key u h
    obtain ⟨tx, o, h1, h2, h3, _⟩ := Reachable.utxo_fromOutput P c hc key u h
    exact ⟨tx, o, h1, h2, h3⟩

namespace Model

/-! ## Behaviour on further concrete inputs -/

/-- C21 fails as stated: `AddBlock` accepts `rootedBlock`, which has no
transactions and a `RootHash` of 32 bytes, and the chain stores it as it is. -/
theorem stored_empty_block_keeps_rootHash :
    chain0.AddBlock primitives rootedBlock = some (none, after chain0 rootedBlock, rootedBlock) ∧
    (after chain0 rootedBlock).GetBlockByHeight primitives 1 = some (.ok rootedBlock) ∧
    (after chain0 rootedBlock).blockStore.Get (hexEncode (HashBlock primitives rootedBlock))
      = some rootedBlock ∧
    rootedBlock.Transactions = [] ∧ rootedBlock.Header.RootHash.length = 32 ∧
    rootedBlock.Header.RootHash ≠ [] := by
  decide!

/-- The chain after `AddBlock` of `block1` has the history of the genesis block
and `block1`; the block stored under the hash of `block1` has the header and
the number of transactions of `block1`, and its `RootHash` is the Merkle root
of the hashes of the transactions of `block1` as passed to `AddBlock`. -/
theorem stored_block_rootHash_commits_witness :
    ReachableWith primitives [genesis, block1] (after chain0 block1) ∧
    (after chain0 block1).blockStore.Get (hexEncode (HashBlock primitives block1))
      = some (cleared block1) ∧
    some block1.Header.RootHash =
      merkleRootOf primitives (block1.Transactions.map (HashTransaction primitives)) ∧
    ∃ b ∈ [genesis, block1], (cleared block1).Header = b.Header ∧
      (cleared block1).Transactions.length = b.Transactions.length ∧
      (0 < (cleared block1).Transactions.length →
        some (cleared block1).Header.RootHash =
          merkleRootOf primitives (b.Transactions.map (HashTransaction primitives))) :=
  ⟨ReachableWith.accept [genesis] chain0 block1 (after chain0 block1) (cleared block1)
      (ReachableWith.init chain0 genesis (by decide!) (by decide!)) (by decide!),
    by decide!, by decide!,
    stored_block_rootHash_commits primitives [genesis, block1] (after chain0 block1)
      (ReachableWith.accept [genesis] chain0 block1 (after chain0 block1) (cleared block1)
        (ReachableWith.init chain0 genesis (by decide!) (by decide!)) (by decide!))
      (hexEncode (HashBlock primitives block1)) (cleared block1) (by decide!)⟩

theorem headers_form_linear_chain_witness :
    (after chain0 block1).Height = 1 ∧
    ∃ prev hdr : Header, (after chain0 block1).headers.Get (1 - 1) = some prev ∧
      (after chain0 block1).headers.Get 1 = some hdr ∧
      hdr.PrevHash = HashHeader primitives prev :=
  ⟨by decide!,
    (headers_form_linear_chain primitives (after chain0 block1)
      (Reachable.step chain0 block1 none (after chain0 block1) (cleared block1)
        (Reachable.init chain0 (by decide!)) (by decide!))).2 1 (by decide) (by decide!)⟩

theorem stored_utxos_are_never_spent_witness :
    (after chain0 block1).utxStore.data.length = 3 ∧
    ∀ (key : String) (u : UTXO), (after chain0 block1).utxStore.Get key = some u →
      u.Spent = false :=
  ⟨by decide!,
    (stored_utxos_are_never_spent primitives (after chain0 block1)
      (Reachable.step chain0 block1 none (after chain0 block1) (cleared block1)
        (Reachable.init chain0 (by decide!)) (by decide!))).1⟩

/-- C25 fails as stated: `ValidateTransaction` accepts `negativeTx`, whose
second output has amount -1000, and after `AddBlock` of the block that holds
it the UTXO store has a UTXO of amount -1000. -/
theorem negative_output_is_accepted :
    chain0.ValidateTransaction primitives negativeTx = some (none, negativeTx.clearSignatures) ∧
    negativeTx.Outputs.map (fun o => o.Amount) = [2000, -1000] ∧
    chain0.AddBlock primitives negativeBlock
      = some (none, after chain0 negativeBlock, cleared negativeBlock) ∧
    ((after chain0 negativeBlock).utxStore.Get
      (utxoKey (hexEncode (HashTransaction primitives negativeTx.clearSignatures)) 1)).map
        (fun u => u.Amount) = some (-1000) := by
  decide!

theorem accepted_outputs_are_covered_witness :
    chain0.ValidateTransaction primitives negativeTx = some (none, negativeTx.clearSignatures) ∧
    int64Sum (negativeTx.Outputs.map (fun o => o.Amount)) ≤
      int64Sum (chain0.inputAmounts 0 negativeTx.Inputs) :=
  ⟨by decide!,
    (accepted_outputs_are_covered primitives chain0 (Reachable.init chain0 (by decide!))).1
      negativeTx negativeTx.clearSignatures (by decide!)⟩

/-- C26. On the chain built by `NewChain`, whose height is 0,
`GetBlockByHeight(-1)` does not return: -1 is not above the height, so the
index reaches `HeaderList.Get`, whose slice access panics on it. -/
theorem getBlockByHeight_negative_panics :
    NewChain primitives NewMemoryBlockStore NewMemoryTXStore = some chain0 ∧
    chain0.Height = 0 ∧ chain0.headers.Get (-1) = none ∧
    chain0.GetBlockByHeight primitives (-1) = none := by
  decide!

end Model

/-! ## Two concurrent calls of `Add` -/

/-- The two critical sections of `Add`, run without anything in between, give
what `Add` gives. -/
theorem Mempool.Add.step_twice (P : Primitives) (tx : Transaction) (m : Mempool) :
    Mempool.Add.step P tx (Mempool.Add.step P tx m .start).1
        (Mempool.Add.step P tx m .start).2 =
      ((m.Add P tx).2, .returned (m.Add P tx).1) := by
  by_cases h : m.Has P tx = true
  · simp [Mempool.Add.step, Mempool.Add, h]
  · simp [Mempool.Add.step, Mempool.Add, h]

/-- On a map without duplicate keys `Clear` returns every stored transaction once
and leaves the mempool empty. -/
theorem Mempool.Clear_of_nodup (m : Mempool) (hm : m.txx.keys.Nodup) :
    m.Clear = (m.txx.map (fun p => p.2), { txx := [] }) := by
  have h := Mempool.Clear.loop_nodup m.txx [] hm
  simp only [List.length_nil, List.nil_append] at h
  simp [Mempool.Clear, h]

/-- After the write of `Add`, `Has` finds the transaction. -/
theorem Mempool.Has_after_write (P : Primitives) (tx : Transaction) (txx : GoMap Transaction) :
    Mempool.Has P { txx := txx.set (hexEncode (HashTransaction P tx)) tx } tx = true := by
  simp [Mempool.Has, GoMap.get_set_self]

/-- C22. On a mempool that does not hold `tx`, two concurrent calls of
`Add(tx)` both return true when both run their read-locked `Has(tx)` before
either takes the write lock.  When a `Clear` runs between the two writes, `tx`
is in the list that `Clear` returns and in the mempool again afterwards, so the
next `Clear` returns it a second time.  Run one after the other, the first call
returns true and the second false. -/
theorem concurrent_adds_both_return_true (P : Primitives) (tx : Transaction) (m : Mempool)
    (h : m.Has P tx = false) (hm : m.txx.keys.Nodup) :
    (Race.run P tx (Race.begin m) [.first, .second, .first, .second]).first = .returned true ∧
    (Race.run P tx (Race.begin m) [.first, .second, .first, .second]).second = .returned true ∧
    (Race.run P tx (Race.begin m) [.first, .second, .first, .clear, .second, .clear]).first
      = .returned true ∧
    (Race.run P tx (Race.begin m) [.first, .second, .first, .clear, .second, .clear]).second
      = .returned true ∧
    (Race.run P tx (Race.begin m) [.first, .second, .first, .clear, .second, .clear]).drained
      = [tx :: m.txx.map (fun p => p.2), [tx]] ∧
    (Race.run P tx (Race.begin m) [.first, .first, .second, .second]).first = .returned true ∧
    (Race.run P tx (Race.begin m) [.first, .first, .second, .second]).second
      = .returned false := by
  have hget : m.txx.get (hexEncode (HashTransaction P tx)) = none := by
    simpa [Mempool.Has] using h
  have hw := Mempool.Has_after_write P tx m.txx
  have hnd : (GoMap.keys (m.txx.set (hexEncode (HashTransaction P tx)) tx)).Nodup :=
    GoMap.keys_set_nodup m.txx _ tx hm
  have hc1 := Mempool.Clear_of_nodup
    { txx := m.txx.set (hexEncode (HashTransaction P tx)) tx } hnd
  have hc2 := Mempool.Clear_of_nodup
    { txx := GoMap.set [] (hexEncode (HashTransaction P tx)) tx }
    (GoMap.keys_set_nodup [] _ tx (by simp [GoMap.keys]))
  refine ⟨?_, ?_, ?_, ?_, ?_, ?_, ?_⟩
  · simp [Race.run, Race.step, Race.begin, Mempool.Add.step, h]
  · simp [Race.run, Race.step, Race.begin, Mempool.Add.step, h]
  · simp [Race.run, Race.step, Race.begin, Mempool.Add.step, h]
  · simp [Race.run, Race.step, Race.begin, Mempool.Add.step, h]
  · simp [Race.run, Race.step, Race.begin, Mempool.Add.step, h, hc1, hc2]
    simp [GoMap.set, GoMap.erase, GoMap.erase_of_get_none _ _ hget]
  · simp [Race.run, Race.step, Race.begin, Mempool.Add.step, h]
  · simp [Race.run, Race.step, Race.begin, Mempool.Add.step, h, hw]

namespace Model

/-- The race at the empty mempool and the transaction of `block1`: the mempool
does not hold it, and with both checks before both writes the two calls of
`Add` return true. -/
theorem concurrent_adds_both_return_true_witness :
    NewMempool.Has primitives spendTx = false ∧ NewMempool.txx.keys.Nodup ∧
    (Race.run primitives spendTx (Race.begin NewMempool)
      [.first, .second, .first, .second]).first = .returned true ∧
    (Race.run primitives spendTx (Race.begin NewMempool)
      [.first, .second, .first, .second]).second = .returned true :=
  ⟨by decide!, by decide!,
    (concurrent_adds_both_return_true primitives spendTx NewMempool (by decide!)
      (by decide!)).1,
    (concurrent_adds_both_return_true primitives spendTx NewMempool (by decide!)
      (by decide!)).2.1⟩

/-- C11. Two transactions whose input signatures verify, whose inputs all
resolve to unspent UTXOs and whose exact sum of input amounts is at least the
exact sum of output amounts, and on which `ValidateTransaction` returns the
"insufficient balance" error all the same, because it sums in `int64`.
`wrappingTx`, on the chain built by `NewChain`: input 1000, outputs `-2 ^ 63`
and `-1`, whose `int64` sum wraps to `2 ^ 63 - 1`.  `twoRichInputsTx`, on the
chain after `overflowBlock`: two inputs of `2 ^ 62`, whose `int64` sum wraps to
`-2 ^ 63`, and one output of 1. -/
theorem covered_outputs_are_rejected :
    (VerifyTransaction primitives wrappingTx).map (fun r => r.1) = some true ∧
    chain0.inputAmounts 0 wrappingTx.Inputs = [1000] ∧
    (∀ (i : Nat) (hi : i < wrappingTx.Inputs.length),
      ∃ u, chain0.inputUTXO i (wrappingTx.Inputs.get ⟨i, hi⟩) = some u ∧ u.Spent = false) ∧
    wrappingTx.Outputs.map (fun o => o.Amount) = [-2 ^ 63, -1] ∧
    (wrappingTx.Outputs.map (fun o => o.Amount)).sum ≤ (chain0.inputAmounts 0 wrappingTx.Inputs).sum ∧
    chain0.ValidateTransaction primitives wrappingTx =
      some (some (.insufficientBalance 1000 (2 ^ 63 - 1)), wrappingTx.clearSignatures) ∧
    chain0.AddBlock primitives overflowBlock = some (none, richChain, cleared overflowBlock) ∧
    (VerifyTransaction primitives twoRichInputsTx).map (fun r => r.1) = some true ∧
    richChain.inputAmounts 0 twoRichInputsTx.Inputs = [2 ^ 62, 2 ^ 62] ∧
    (∀ (i : Nat) (hi : i < twoRichInputsTx.Inputs.length),
      ∃ u, richChain.inputUTXO i (twoRichInputsTx.Inputs.get ⟨i, hi⟩) = some u ∧
        u.Spent = false) ∧
    twoRichInputsTx.Outputs.map (fun o => o.Amount) = [1] ∧
    (twoRichInputsTx.Outputs.map (fun o => o.Amount)).sum ≤
      (richChain.inputAmounts 0 twoRichInputsTx.Inputs).sum ∧
    richChain.ValidateTransaction primitives twoRichInputsTx =
      some (some (.insufficientBalance (-2 ^ 63) 1), twoRichInputsTx.clearSignatures) := by
  decide!

end Model

end Blocker
